import Mathlib

/-!
Verification development for the recipe promotion / ingredient identity
pipeline.  Python sources are shallowly embedded: strings are `List Char`
(with `String` wrappers keeping the source names), machine-level Unicode
operations (`str.lower`, `unicodedata` NFD + strip-combining-marks + NFC)
are modelled by explicit character tables covering ASCII and the
precomposed Vietnamese letters that occur in the repository's data, and
the specific regular expressions of the sources are embedded as
deterministic character-list scanners with the same backtracking
semantics.  Numeric amounts are `ℚ` (Python uses `decimal.Decimal`,
i.e. exact decimal arithmetic), similarity scores are `ℚ` (Python uses
floats; only order comparisons against thresholds matter here).
-/

namespace Promote

/-! ### Character classes -/

/-- `[a-z0-9]`: the characters kept by the normalization regexes. -/
def isAl (c : Char) : Bool :=
  (97 ≤ c.toNat && c.toNat ≤ 122) || (48 ≤ c.toNat && c.toNat ≤ 57)

/-- ASCII decimal digit, the model of regex `\d`. -/
def isDig (c : Char) : Bool := 48 ≤ c.toNat && c.toNat ≤ 57

/-- Model of regex `\s` (Python whitespace). -/
def isWs (c : Char) : Bool :=
  c.toNat = 32 || c.toNat = 9 || c.toNat = 10 || c.toNat = 13 ||
  c.toNat = 11 || c.toNat = 12

/-- Model of a regex word character (`\w`) for `\b` boundaries: ASCII
alphanumerics, underscore, and any non-ASCII character (the non-ASCII
characters appearing in this repository's data are Vietnamese letters,
which Python's `re` treats as word characters). -/
def isWordChar (c : Char) : Bool :=
  (65 ≤ c.toNat && c.toNat ≤ 90) || (97 ≤ c.toNat && c.toNat ≤ 122) ||
  (48 ≤ c.toNat && c.toNat ≤ 57) || c.toNat = 95 || 128 ≤ c.toNat

/-- Model of `str.lower`, restricted to ASCII uppercase (every accented
letter reaching `lower` in the embedded code paths is already
lowercase). -/
def lowerChar (c : Char) : Char :=
  if 65 ≤ c.toNat && c.toNat ≤ 90 then Char.ofNat (c.toNat + 32) else c

/-- Precomposed lowercase Vietnamese letters paired with their base
letter: NFD decomposes the left column into base letter + combining
marks, and stripping marks (Unicode category Mn) leaves the base. -/
def accentBase : List (Char × Char) :=
  [('á','a'), ('à','a'), ('ả','a'), ('ã','a'), ('ạ','a'),
   ('ă','a'), ('ắ','a'), ('ằ','a'), ('ẳ','a'), ('ẵ','a'), ('ặ','a'),
   ('â','a'), ('ấ','a'), ('ầ','a'), ('ẩ','a'), ('ẫ','a'), ('ậ','a'),
   ('é','e'), ('è','e'), ('ẻ','e'), ('ẽ','e'), ('ẹ','e'),
   ('ê','e'), ('ế','e'), ('ề','e'), ('ể','e'), ('ễ','e'), ('ệ','e'),
   ('í','i'), ('ì','i'), ('ỉ','i'), ('ĩ','i'), ('ị','i'),
   ('ó','o'), ('ò','o'), ('ỏ','o'), ('õ','o'), ('ọ','o'),
   ('ô','o'), ('ố','o'), ('ồ','o'), ('ổ','o'), ('ỗ','o'), ('ộ','o'),
   ('ơ','o'), ('ớ','o'), ('ờ','o'), ('ở','o'), ('ỡ','o'), ('ợ','o'),
   ('ú','u'), ('ù','u'), ('ủ','u'), ('ũ','u'), ('ụ','u'),
   ('ư','u'), ('ứ','u'), ('ừ','u'), ('ử','u'), ('ữ','u'), ('ự','u'),
   ('ý','y'), ('ỳ','y'), ('ỷ','y'), ('ỹ','y'), ('ỵ','y')]

/-- Per-character model of NFD decomposition followed by removal of
combining marks (category Mn) and NFC recomposition: a precomposed
accented letter maps to its base letter, a free-standing combining mark
(U+0300..U+036F) disappears, everything else (including 'đ', which NFD
does not decompose) is unchanged. -/
def accentExp (c : Char) : List Char :=
  if 0x300 ≤ c.toNat && c.toNat ≤ 0x36F then []
  else
    match accentBase.find? (fun p => p.1 = c) with
    | some p => [p.2]
    | none => [c]

/-! ### Generic scanners shared by the embedded regex substitutions -/

/-- `subRunsAux p inRun l` replaces every maximal run of characters
satisfying `p` by a single space: the model of
`re.sub(r"<class>+", " ", s)`.  `inRun` records whether the previous
character was part of a run whose space was already emitted. -/
def subRunsAux (p : Char → Bool) : Bool → List Char → List Char
  | _, [] => []
  | true, c :: cs =>
    if p c then subRunsAux p true cs else c :: subRunsAux p false cs
  | false, c :: cs =>
    if p c then ' ' :: subRunsAux p true cs else c :: subRunsAux p false cs

/-- Replace maximal runs of `p`-characters by a single space. -/
def subRuns (p : Char → Bool) (l : List Char) : List Char :=
  subRunsAux p false l

/-- Model of `RE_SPACES.sub(" ", s)` (`RE_SPACES = \s+`). -/
def collapseWs (l : List Char) : List Char := subRuns isWs l

/-- Model of Python `str.strip()`. -/
def stripWs (l : List Char) : List Char :=
  (l.dropWhile isWs).rdropWhile isWs

/-- Model of `normalize_spaces` (pipeline.py line 50): collapse
whitespace runs to a single space then strip both ends. -/
def normalize_spacesL (l : List Char) : List Char := stripWs (collapseWs l)

/-- Model of `remove_accents` (identical code in pipeline.py lines 53-56
and phase2_alias_job.py lines 42-45): NFD, strip combining marks, NFC. -/
def remove_accentsL (l : List Char) : List Char := l.flatMap accentExp

/-! ### Word splitting (model of Python `str.split()`) -/

/-- `wordsAux p cur l`: split `l` at runs of characters satisfying `p`,
discarding empty pieces; `cur` is the reversed current word. -/
def wordsAux (p : Char → Bool) : List Char → List Char → List (List Char)
  | cur, [] => if cur.isEmpty then [] else [cur.reverse]
  | cur, c :: cs =>
    if p c then
      if cur.isEmpty then wordsAux p [] cs
      else cur.reverse :: wordsAux p [] cs
    else wordsAux p (c :: cur) cs

/-- Split on `p`-characters, dropping empty pieces; `wordsBy isWs` is
the model of Python `str.split()` with no argument. -/
def wordsBy (p : Char → Bool) (l : List Char) : List (List Char) :=
  wordsAux p [] l

/-- Join words with single spaces: the model of `" ".join(tokens)`. -/
def unwords : List (List Char) → List Char
  | [] => []
  | [w] => w
  | w :: ws => w ++ ' ' :: unwords ws

/-! ### The three normalization functions (claim C1 / C9) -/

/-- `normalize_alias_norm` (pipeline.py lines 58-61) on `List Char`:
lowercase, strip accents, collapse non-`[a-z0-9]` runs to spaces,
collapse whitespace, strip. -/
def normalize_alias_normL (l : List Char) : List Char :=
  normalize_spacesL (subRuns (fun c => !isAl c) (remove_accentsL (l.map lowerChar)))

/-- `normalize_alias_norm` on `String`. -/
def normalize_alias_norm (s : String) : String :=
  ⟨normalize_alias_normL s.data⟩

/-- `norm_text` (fill_key_norm.py lines 7-14): empty guard, lowercase,
NFD + strip combining marks (no NFC recomposition: at this model's
character level recomposition is the identity on mark-stripped text),
collapse non-`[a-z0-9]` runs to spaces, strip (no whitespace-collapsing
pass). -/
def norm_textL (l : List Char) : List Char :=
  if l.isEmpty then []
  else
    ((subRuns (fun c => !isAl c) (remove_accentsL (l.map lowerChar))).dropWhile isWs).rdropWhile isWs

/-- `norm_text` on `String`. -/
def norm_text (s : String) : String := ⟨norm_textL s.data⟩

/-- `STOPWORDS` (phase2_alias_job.py lines 27-31). -/
def STOPWORDS : List (List Char) :=
  ["va".data, "voi".data, "loai".data, "moi".data, "neu".data, "thi".data,
   "dung".data, "cung".data, "duoc".data, "de".data,
   "it".data, "mot".data, "vai".data, "khoang".data, "hoac".data, "cai".data,
   "goi".data, "hop".data, "chai".data, "lon".data,
   "tuoi".data, "kho".data, "an".data, "uong".data]

/-- `ABBREV_MAP.get(t, t)` (phase2_alias_job.py lines 33-40). -/
def abbrevMap (t : List Char) : List Char :=
  if t = "nc".data then "nuoc".data
  else if t = "n.c".data then "nuoc".data
  else if t = "nuoc".data then "nuoc".data
  else if t = "sg".data then []
  else if t = "hn".data then []
  else t

/-- The token phase of `normalize_key` (phase2_alias_job.py lines 55-60):
map each token through `ABBREV_MAP`, drop empty tokens and stopwords. -/
def filterTokens (ts : List (List Char)) : List (List Char) :=
  (ts.map abbrevMap).filter (fun t => !t.isEmpty && !STOPWORDS.contains t)

/-- The character phase of `normalize_key` (phase2_alias_job.py lines
49-54): strip, lowercase, strip accents, collapse non-`[a-z0-9\s]` runs
to spaces, collapse whitespace, strip. -/
def preKeyL (l : List Char) : List Char :=
  stripWs (collapseWs
    (subRuns (fun c => !isAl c && !isWs c)
      (remove_accentsL ((stripWs l).map lowerChar))))

/-- `normalize_key` (phase2_alias_job.py lines 47-61) on `List Char`:
the character phase, then abbreviation-map / stopword filtering of the
tokens, re-joined with single spaces. -/
def normalize_keyL (l : List Char) : List Char :=
  if (preKeyL l).isEmpty then []
  else unwords (filterTokens (wordsBy isWs (preKeyL l)))

/-- `normalize_key` on `String`. -/
def normalize_key (s : String) : String := ⟨normalize_keyL s.data⟩

/-! ### Character-level lemmas -/

lemma isAl_toNat {c : Char} (h : isAl c = true) :
    (97 ≤ c.toNat ∧ c.toNat ≤ 122) ∨ (48 ≤ c.toNat ∧ c.toNat ≤ 57) := by
  simp only [isAl, Bool.or_eq_true, Bool.and_eq_true, decide_eq_true_eq] at h
  exact h

lemma isAl_isWs {c : Char} (h : isAl c = true) : isWs c = false := by
  rcases isAl_toNat h with ⟨h1, h2⟩ | ⟨h1, h2⟩ <;>
    simp only [isWs, Bool.or_eq_false_iff, decide_eq_false_iff_not] <;> omega

lemma isAl_ne_space {c : Char} (h : isAl c = true) : c ≠ ' ' := by
  intro he; subst he; simp [isAl] at h

lemma lowerChar_eq_self {c : Char} (h : isAl c = true ∨ c = ' ') :
    lowerChar c = c := by
  have hv : ¬(65 ≤ c.toNat ∧ c.toNat ≤ 90) := by
    rcases h with h | h
    · rcases isAl_toNat h with ⟨h1, h2⟩ | ⟨h1, h2⟩ <;> omega
    · subst h; decide
  simp only [lowerChar, Bool.and_eq_true, decide_eq_true_eq, ite_eq_right_iff]
  intro hcon; exact absurd hcon hv

lemma accentBase_ge {p : Char × Char} (hp : p ∈ accentBase) : 224 ≤ p.1.toNat := by
  have h := List.all_eq_true.mp
    (by decide : accentBase.all (fun q => decide (224 ≤ q.1.toNat)) = true) p hp
  simpa using h

lemma accentExp_eq_self {c : Char} (h : c.toNat < 224) : accentExp c = [c] := by
  have h2 : accentBase.find? (fun p => p.1 = c) = none := by
    apply List.find?_eq_none.mpr
    intro p hp
    have hge := accentBase_ge hp
    simp only [decide_eq_true_eq]
    intro he
    rw [he] at hge; omega
  simp only [accentExp, h2, Bool.and_eq_true, decide_eq_true_eq]
  rw [if_neg]
  omega

lemma accentExp_of_al_or_space {c : Char} (h : isAl c = true ∨ c = ' ') :
    accentExp c = [c] := by
  apply accentExp_eq_self
  rcases h with h | h
  · rcases isAl_toNat h with ⟨h1, h2⟩ | ⟨h1, h2⟩ <;> omega
  · subst h; decide

/-! ### Lemmas about run substitution -/

/-- ''No two adjacent spaces'': invariant of all run-substituted text. -/
def NoTwoSp (l : List Char) : Prop :=
  List.Chain' (fun a b => ¬(a = ' ' ∧ b = ' ')) l

lemma noTwoSp_nil : NoTwoSp [] := List.chain'_nil

lemma noTwoSp_tail {d : Char} {l : List Char} (h : NoTwoSp (d :: l)) : NoTwoSp l :=
  (List.chain'_cons'.mp h).2

lemma mem_subRunsAux {p : Char → Bool} {c : Char} {l : List Char} :
    ∀ {b : Bool}, c ∈ subRunsAux p b l → (c ∈ l ∧ p c = false) ∨ c = ' ' := by
  induction l with
  | nil => intro b h; cases b <;> simp [subRunsAux] at h
  | cons d ds ih =>
    intro b h
    by_cases hd : p d = true
    · cases b with
      | true =>
        rw [subRunsAux, if_pos hd] at h
        rcases ih h with ⟨h1, h2⟩ | h1
        · exact Or.inl ⟨List.mem_cons_of_mem _ h1, h2⟩
        · exact Or.inr h1
      | false =>
        rw [subRunsAux, if_pos hd] at h
        rcases List.mem_cons.mp h with h1 | h1
        · exact Or.inr h1
        · rcases ih h1 with ⟨h2, h3⟩ | h2
          · exact Or.inl ⟨List.mem_cons_of_mem _ h2, h3⟩
          · exact Or.inr h2
    · replace h : c ∈ d :: subRunsAux p false ds := by
        cases b with
        | true => rwa [subRunsAux, if_neg hd] at h
        | false => rwa [subRunsAux, if_neg hd] at h
      rcases List.mem_cons.mp h with h1 | h1
      · subst h1
        exact Or.inl ⟨List.mem_cons_self _ _, Bool.not_eq_true _ ▸ hd⟩
      · rcases ih h1 with ⟨h2, h3⟩ | h2
        · exact Or.inl ⟨List.mem_cons_of_mem _ h2, h3⟩
        · exact Or.inr h2

lemma head?_subRunsAux_true {p : Char → Bool} {l : List Char} {c : Char}
    (h : (subRunsAux p true l).head? = some c) : p c = false := by
  induction l with
  | nil => simp [subRunsAux] at h
  | cons d ds ih =>
    by_cases hd : p d = true
    · rw [subRunsAux, if_pos hd] at h; exact ih h
    · rw [subRunsAux, if_neg hd, List.head?_cons, Option.some_inj] at h
      subst h; exact Bool.not_eq_true _ ▸ hd

lemma noTwoSp_subRunsAux {p : Char → Bool} (hp : p ' ' = true) :
    ∀ (b : Bool) (l : List Char), NoTwoSp (subRunsAux p b l) := by
  intro b l
  induction l generalizing b with
  | nil => cases b <;> simp [subRunsAux, NoTwoSp]
  | cons d ds ih =>
    by_cases hd : p d = true
    · cases b with
      | true => rw [subRunsAux, if_pos hd]; exact ih true
      | false =>
        rw [subRunsAux, if_pos hd]
        refine List.chain'_cons'.mpr ⟨?_, ih true⟩
        intro y hy hcon
        have h1 := head?_subRunsAux_true hy
        rw [hcon.2] at h1; rw [h1] at hp; exact Bool.false_ne_true hp
    · have hstep : subRunsAux p b (d :: ds) = d :: subRunsAux p false ds := by
        cases b with
        | true => rw [subRunsAux, if_neg hd]
        | false => rw [subRunsAux, if_neg hd]
      rw [hstep]
      refine List.chain'_cons'.mpr ⟨?_, ih false⟩
      intro y _ hcon
      rw [hcon.1] at hd; exact hd hp

lemma subRunsAux_eq_self {p : Char → Bool} :
    ∀ (l : List Char) (b : Bool),
      (∀ c ∈ l, p c = true → c = ' ') → NoTwoSp l →
      (b = true → l.head? ≠ some ' ') → subRunsAux p b l = l := by
  intro l
  induction l with
  | nil => intro b _ _ _; cases b <;> simp [subRunsAux]
  | cons d ds ih =>
    intro b hsp hch hhd
    by_cases hd : p d = true
    · have hd' : d = ' ' := hsp d (List.mem_cons_self _ _) hd
      cases b with
      | true =>
        exact absurd (by simp [hd'] : (d :: ds).head? = some ' ') (hhd rfl)
      | false =>
        rw [subRunsAux, if_pos hd, hd']
        congr 1
        refine ih true (fun c hc => hsp c (List.mem_cons_of_mem _ hc))
          (noTwoSp_tail hch) (fun _ hds => ?_)
        have hrel := (List.chain'_cons'.mp hch).1
        cases hds' : ds.head? with
        | none => rw [hds'] at hds; exact Option.noConfusion hds
        | some y =>
          rw [hds'] at hds
          have hy := hrel y hds'
          rw [hd'] at hy
          exact hy ⟨rfl, Option.some_inj.mp hds⟩
    · have hstep : subRunsAux p b (d :: ds) = d :: subRunsAux p false ds := by
        cases b with
        | true => rw [subRunsAux, if_neg hd]
        | false => rw [subRunsAux, if_neg hd]
      rw [hstep]
      congr 1
      exact ih false (fun c hc => hsp c (List.mem_cons_of_mem _ hc))
        (noTwoSp_tail hch) (fun hb => Bool.noConfusion hb)

/-! ### Lemmas about stripping -/

lemma head?_dropWhile_not {p : Char → Bool} {l : List Char} {c : Char}
    (h : (l.dropWhile p).head? = some c) : p c = false := by
  induction l with
  | nil => simp at h
  | cons d ds ih =>
    by_cases hd : p d = true
    · rw [List.dropWhile_cons_of_pos hd] at h; exact ih h
    · rw [List.dropWhile_cons_of_neg hd, List.head?_cons, Option.some_inj] at h
      subst h; exact Bool.not_eq_true _ ▸ hd

lemma head?_rdropWhile {p : Char → Bool} {l : List Char} {c : Char}
    (h : (l.rdropWhile p).head? = some c) : l.head? = some c := by
  obtain ⟨t, ht⟩ := List.rdropWhile_prefix p (l := l)
  cases hr : l.rdropWhile p with
  | nil => rw [hr] at h; simp at h
  | cons x xs =>
    rw [hr] at h ht
    rw [List.head?_cons, Option.some_inj] at h
    subst h
    rw [← ht]
    simp

lemma getLast?_rdropWhile_not {p : Char → Bool} {l : List Char} {c : Char}
    (h : (l.rdropWhile p).getLast? = some c) : p c = false := by
  have hne : l.rdropWhile p ≠ [] := by
    intro hh; rw [hh] at h; simp at h
  have h2 := List.rdropWhile_last_not p l hne
  have h3 : (l.rdropWhile p).getLast hne = c := by
    have := List.getLast?_eq_getLast (l.rdropWhile p) hne
    rw [this, Option.some_inj] at h
    exact h
  rw [h3] at h2
  exact Bool.not_eq_true _ ▸ h2

lemma head?_stripWs_not {l : List Char} {c : Char}
    (h : (stripWs l).head? = some c) : isWs c = false :=
  head?_dropWhile_not (head?_rdropWhile h)

lemma getLast?_stripWs_not {l : List Char} {c : Char}
    (h : (stripWs l).getLast? = some c) : isWs c = false :=
  getLast?_rdropWhile_not h

lemma mem_stripWs {l : List Char} {c : Char} (h : c ∈ stripWs l) : c ∈ l := by
  have h1 : c ∈ l.dropWhile isWs :=
    (List.rdropWhile_prefix isWs (l := l.dropWhile isWs)).sublist.mem h
  exact (List.dropWhile_suffix isWs).sublist.mem h1

lemma noTwoSp_stripWs {l : List Char} (h : NoTwoSp l) : NoTwoSp (stripWs l) :=
  List.Chain'.prefix (List.Chain'.suffix h (List.dropWhile_suffix isWs))
    (List.rdropWhile_prefix isWs _)

lemma stripWs_eq_self {l : List Char}
    (hh : ∀ c, l.head? = some c → isWs c = false)
    (hl : ∀ c, l.getLast? = some c → isWs c = false) : stripWs l = l := by
  have h1 : l.dropWhile isWs = l := by
    cases l with
    | nil => rfl
    | cons d ds =>
      rw [List.dropWhile_cons_of_neg]
      simp [hh d rfl]
  rw [stripWs, h1, List.rdropWhile_eq_self_iff]
  intro hne
  have h2 := hl (l.getLast hne) (List.getLast?_eq_getLast l hne)
  simp [h2]

/-! ### Pointwise identity lemmas -/

lemma map_id_of {l : List Char} {f : Char → Char} (h : ∀ c ∈ l, f c = c) :
    l.map f = l := by
  induction l with
  | nil => rfl
  | cons d ds ih =>
    rw [List.map_cons, h d (List.mem_cons_self _ _),
      ih fun c hc => h c (List.mem_cons_of_mem _ hc)]

lemma flatMap_id_of {l : List Char} {f : Char → List Char}
    (h : ∀ c ∈ l, f c = [c]) : l.flatMap f = l := by
  induction l with
  | nil => rfl
  | cons d ds ih =>
    rw [List.flatMap_cons, h d (List.mem_cons_self _ _),
      ih fun c hc => h c (List.mem_cons_of_mem _ hc)]
    rfl

/-! ### Structure of `normalize_alias_norm` output -/

lemma mem_normalize_alias_normL {l : List Char} {c : Char}
    (h : c ∈ normalize_alias_normL l) : isAl c = true ∨ c = ' ' := by
  have h1 := mem_stripWs h
  rcases mem_subRunsAux h1 with ⟨h2, _⟩ | h2
  · rcases mem_subRunsAux h2 with ⟨_, h5⟩ | h4
    · left; simpa using h5
    · right; exact h4
  · right; exact h2

lemma noTwoSp_normalize_alias_normL (l : List Char) :
    NoTwoSp (normalize_alias_normL l) :=
  noTwoSp_stripWs (noTwoSp_subRunsAux (by decide) false _)

lemma normalize_alias_normL_id {l : List Char}
    (hmem : ∀ c ∈ l, isAl c = true ∨ c = ' ')
    (hch : NoTwoSp l)
    (hh : ∀ c, l.head? = some c → isWs c = false)
    (hl : ∀ c, l.getLast? = some c → isWs c = false) :
    normalize_alias_normL l = l := by
  have hmap : l.map lowerChar = l :=
    map_id_of fun c hc => lowerChar_eq_self (hmem c hc)
  have hacc : remove_accentsL l = l :=
    flatMap_id_of fun c hc => accentExp_of_al_or_space (hmem c hc)
  have hsub : subRuns (fun c => !isAl c) l = l := by
    refine subRunsAux_eq_self l false (fun c hc hpc => ?_) hch
      (fun hb => Bool.noConfusion hb)
    rcases hmem c hc with h1 | h1
    · rw [h1] at hpc; exact absurd hpc (by simp)
    · exact h1
  have hcol : collapseWs l = l := by
    refine subRunsAux_eq_self l false (fun c hc hpc => ?_) hch
      (fun hb => Bool.noConfusion hb)
    rcases hmem c hc with h1 | h1
    · rw [isAl_isWs h1] at hpc; exact Bool.noConfusion hpc
    · exact h1
  have hstr : stripWs l = l := stripWs_eq_self hh hl
  rw [normalize_alias_normL, hmap, hacc, hsub, normalize_spacesL, hcol, hstr]

/-- `normalize_alias_norm` and `norm_text` agree on every input: the only
textual difference, an extra whitespace-collapsing pass, is the identity
after non-alphanumeric runs are already collapsed to single spaces. -/
lemma alias_eq_norm_textL (l : List Char) :
    normalize_alias_normL l = norm_textL l := by
  by_cases hl : l.isEmpty
  · have : l = [] := by cases l with
      | nil => rfl
      | cons d ds => simp [List.isEmpty] at hl
    subst this; rfl
  · rw [norm_textL, if_neg hl]
    rw [normalize_alias_normL, normalize_spacesL]
    have hcol : collapseWs (subRuns (fun c => !isAl c)
        (remove_accentsL (l.map lowerChar))) =
        subRuns (fun c => !isAl c) (remove_accentsL (l.map lowerChar)) := by
      refine subRunsAux_eq_self _ false (fun c hc hpc => ?_)
        (noTwoSp_subRunsAux (by decide) false _) (fun hb => Bool.noConfusion hb)
      rcases mem_subRunsAux hc with ⟨_, h2⟩ | h1
      · have hal : isAl c = true := by simpa using h2
        rw [isAl_isWs hal] at hpc; exact Bool.noConfusion hpc
      · exact h1
    rw [hcol]
    rfl

/-! ### Word splitting lemmas -/

lemma mem_wordsAux_ne_nil {p : Char → Bool} {w : List Char} :
    ∀ {cur l : List Char}, w ∈ wordsAux p cur l → w ≠ [] := by
  intro cur l
  induction l generalizing cur with
  | nil =>
    intro h
    by_cases hc : cur.isEmpty = true
    · rw [wordsAux, if_pos hc] at h; simp at h
    · rw [wordsAux, if_neg hc] at h
      rcases List.mem_singleton.mp h with h1
      subst h1
      simp only [ne_eq, List.reverse_eq_nil_iff]
      intro hy; rw [hy] at hc; exact hc rfl
  | cons d ds ih =>
    intro h
    by_cases hd : p d = true
    · by_cases hc : cur.isEmpty = true
      · rw [wordsAux, if_pos hd, if_pos hc] at h; exact ih h
      · rw [wordsAux, if_pos hd, if_neg hc] at h
        rcases List.mem_cons.mp h with h1 | h1
        · subst h1
          simp only [ne_eq, List.reverse_eq_nil_iff]
          intro hy; rw [hy] at hc; exact hc rfl
        · exact ih h1
    · rw [wordsAux, if_neg hd] at h; exact ih h

lemma mem_mem_wordsAux {p : Char → Bool} {w : List Char} {c : Char} :
    ∀ {cur l : List Char}, w ∈ wordsAux p cur l → c ∈ w →
      c ∈ cur ∨ (c ∈ l ∧ p c = false) := by
  intro cur l
  induction l generalizing cur with
  | nil =>
    intro h hc
    by_cases hcur : cur.isEmpty = true
    · rw [wordsAux, if_pos hcur] at h; simp at h
    · rw [wordsAux, if_neg hcur] at h
      rcases List.mem_singleton.mp h with h1
      subst h1
      exact Or.inl (List.mem_reverse.mp hc)
  | cons d ds ih =>
    intro h hc
    by_cases hd : p d = true
    · have hnext : w ∈ wordsAux p [] ds ∨ w = cur.reverse := by
        by_cases hcur : cur.isEmpty = true
        · rw [wordsAux, if_pos hd, if_pos hcur] at h; exact Or.inl h
        · rw [wordsAux, if_pos hd, if_neg hcur] at h
          rcases List.mem_cons.mp h with h1 | h1
          · exact Or.inr h1
          · exact Or.inl h1
      rcases hnext with h1 | h1
      · rcases ih h1 hc with h2 | ⟨h2, h3⟩
        · simp at h2
        · exact Or.inr ⟨List.mem_cons_of_mem _ h2, h3⟩
      · subst h1
        exact Or.inl (List.mem_reverse.mp hc)
    · rw [wordsAux, if_neg hd] at h
      rcases ih h hc with h1 | ⟨h1, h2⟩
      · rcases List.mem_cons.mp h1 with h2 | h2
        · subst h2; exact Or.inr ⟨List.mem_cons_self _ _, Bool.not_eq_true _ ▸ hd⟩
        · exact Or.inl h2
      · exact Or.inr ⟨List.mem_cons_of_mem _ h1, h2⟩

lemma wordsAux_append_word {p : Char → Bool} {w : List Char}
    (hw : ∀ c ∈ w, p c = false) :
    ∀ (cur x : List Char), wordsAux p cur (w ++ x) = wordsAux p (w.reverse ++ cur) x := by
  induction w with
  | nil => intro cur x; simp
  | cons d ws ih =>
    intro cur x
    have hd : ¬(p d = true) := by
      rw [hw d (List.mem_cons_self _ _)]; exact Bool.false_ne_true
    rw [List.cons_append, wordsAux, if_neg hd,
      ih (fun c hc => hw c (List.mem_cons_of_mem _ hc)) (d :: cur) x]
    congr 1
    simp

lemma unwords_cons₂ (w w' : List Char) (ws : List (List Char)) :
    unwords (w :: w' :: ws) = w ++ ' ' :: unwords (w' :: ws) := rfl

/-- Splitting re-joined words recovers the words: the core of
`normalize_key` idempotence. -/
lemma wordsBy_unwords {p : Char → Bool} (hp : p ' ' = true) :
    ∀ {ts : List (List Char)},
      (∀ t ∈ ts, t ≠ [] ∧ ∀ c ∈ t, p c = false) →
      wordsBy p (unwords ts) = ts := by
  intro ts
  induction ts with
  | nil => intro _; rfl
  | cons t ts ih =>
    intro hts
    have ht := hts t (List.mem_cons_self _ _)
    cases ts with
    | nil =>
      show wordsAux p [] (unwords [t]) = [t]
      rw [unwords, ← List.append_nil t, wordsAux_append_word ht.2 [] []]
      rw [wordsAux, if_neg]
      · simp
      · simp only [List.isEmpty_eq_true, List.append_nil, List.reverse_eq_nil_iff]
        intro hy; exact ht.1 hy
    | cons t' ts' =>
      show wordsAux p [] (unwords (t :: t' :: ts')) = t :: t' :: ts'
      rw [unwords_cons₂, wordsAux_append_word ht.2 [] (' ' :: unwords (t' :: ts'))]
      rw [wordsAux, if_pos hp, if_neg]
      · rw [List.append_nil, List.reverse_reverse]
        congr 1
        exact ih fun u hu => hts u (List.mem_cons_of_mem _ hu)
      · simp only [List.isEmpty_eq_true, List.append_nil, List.reverse_eq_nil_iff]
        intro hy; exact ht.1 hy

/-! ### `unwords` structure lemmas -/

lemma unwords_ne_nil {t : List Char} {ts : List (List Char)} (ht : t ≠ []) :
    unwords (t :: ts) ≠ [] := by
  cases ts with
  | nil => exact ht
  | cons t' ts' =>
    rw [unwords_cons₂]
    simp

lemma mem_unwords {ts : List (List Char)} {c : Char} :
    c ∈ unwords ts → (∃ t ∈ ts, c ∈ t) ∨ c = ' ' := by
  induction ts with
  | nil => intro h; simp [unwords] at h
  | cons w ws ih =>
    intro h
    cases ws with
    | nil => exact Or.inl ⟨w, List.mem_cons_self _ _, h⟩
    | cons w' ws' =>
      rw [unwords_cons₂] at h
      rcases List.mem_append.mp h with h1 | h1
      · exact Or.inl ⟨w, List.mem_cons_self _ _, h1⟩
      · rcases List.mem_cons.mp h1 with h2 | h2
        · exact Or.inr h2
        · rcases ih h2 with ⟨t, ht, hc⟩ | h3
          · exact Or.inl ⟨t, List.mem_cons_of_mem _ ht, hc⟩
          · exact Or.inr h3

/-- Hypothesis bundle: a list of non-empty alphanumeric tokens. -/
def GoodToks (ts : List (List Char)) : Prop :=
  ∀ t ∈ ts, t ≠ [] ∧ ∀ c ∈ t, isAl c = true

lemma head?_unwords_not_ws {ts : List (List Char)} (hts : GoodToks ts)
    {c : Char} (h : (unwords ts).head? = some c) : isWs c = false := by
  cases ts with
  | nil => simp [unwords] at h
  | cons w ws =>
    have hw := hts w (List.mem_cons_self _ _)
    have hcw : c ∈ w := by
      cases ws with
      | nil => exact List.mem_of_mem_head? h
      | cons w' ws' =>
        rw [unwords_cons₂, List.head?_append] at h
        cases hwh : w.head? with
        | none => exact absurd (List.head?_eq_none_iff.mp hwh) hw.1
        | some d =>
          rw [hwh] at h
          simp only [Option.or_some, Option.some_inj] at h
          subst h
          exact List.mem_of_mem_head? hwh
    exact isAl_isWs (hw.2 c hcw)

lemma getLast?_unwords_not_ws {ts : List (List Char)} (hts : GoodToks ts)
    {c : Char} (h : (unwords ts).getLast? = some c) : isWs c = false := by
  induction ts with
  | nil => simp [unwords] at h
  | cons w ws ih =>
    cases ws with
    | nil =>
      exact isAl_isWs ((hts w (List.mem_cons_self _ _)).2 c
        (List.mem_of_mem_getLast? h))
    | cons w' ws' =>
      have hne : unwords (w' :: ws') ≠ [] :=
        unwords_ne_nil (hts w' (List.mem_cons_of_mem _ (List.mem_cons_self _ _))).1
      have h2 : (unwords (w :: w' :: ws')).getLast? = (unwords (w' :: ws')).getLast? := by
        rw [unwords_cons₂, List.getLast?_append]
        cases hu : unwords (w' :: ws') with
        | nil => exact absurd hu hne
        | cons v vs =>
          rw [List.getLast?_cons_cons]
          cases hv : (v :: vs).getLast? with
          | none => simp at hv
          | some z => simp
      rw [h2] at h
      exact ih (fun u hu => hts u (List.mem_cons_of_mem _ hu)) h

lemma noTwoSp_of_no_space {l : List Char} (h : ∀ c ∈ l, c ≠ ' ') : NoTwoSp l := by
  induction l with
  | nil => exact noTwoSp_nil
  | cons d ds ih =>
    refine List.chain'_cons'.mpr ⟨?_, ih fun c hc => h c (List.mem_cons_of_mem _ hc)⟩
    intro y _ hcon
    exact h d (List.mem_cons_self _ _) hcon.1

lemma noTwoSp_unwords {ts : List (List Char)} (hts : GoodToks ts) :
    NoTwoSp (unwords ts) := by
  induction ts with
  | nil => exact noTwoSp_nil
  | cons w ws ih =>
    have hw := hts w (List.mem_cons_self _ _)
    cases ws with
    | nil =>
      exact noTwoSp_of_no_space fun c hc => isAl_ne_space (hw.2 c hc)
    | cons w' ws' =>
      rw [unwords_cons₂]
      refine List.chain'_append.mpr ⟨?_, ?_, ?_⟩
      · exact noTwoSp_of_no_space fun c hc => isAl_ne_space (hw.2 c hc)
      · refine List.chain'_cons'.mpr
          ⟨?_, ih fun u hu => hts u (List.mem_cons_of_mem _ hu)⟩
        intro y hy hcon
        have := head?_unwords_not_ws
          (fun u hu => hts u (List.mem_cons_of_mem _ hu)) hy
        rw [hcon.2] at this
        simp [isWs] at this
      · intro x hx y hy hcon
        exact isAl_ne_space (hw.2 x (List.mem_of_mem_getLast? hx)) hcon.1

/-! ### Token-phase lemmas for `normalize_key` -/

lemma nuoc_al : ∀ c ∈ "nuoc".data, isAl c = true := by decide

lemma abbrevMap_chars {t : List Char} {c : Char} (h : c ∈ abbrevMap t) :
    c ∈ t ∨ c ∈ "nuoc".data := by
  unfold abbrevMap at h
  split_ifs at h
  · exact Or.inr h
  · exact Or.inr h
  · exact Or.inr h
  · exact absurd h (List.not_mem_nil c)
  · exact absurd h (List.not_mem_nil c)
  · exact Or.inl h

lemma abbrevMap_idem {t : List Char} :
    abbrevMap t = [] ∨ abbrevMap (abbrevMap t) = abbrevMap t := by
  by_cases h1 : t = "nc".data
  · right; rw [h1]; decide
  · by_cases h2 : t = "n.c".data
    · right; rw [h2]; decide
    · by_cases h3 : t = "nuoc".data
      · right; rw [h3]; decide
      · by_cases h4 : t = "sg".data
        · left; rw [h4]; decide
        · by_cases h5 : t = "hn".data
          · left; rw [h5]; decide
          · right
            have ht : abbrevMap t = t := by
              unfold abbrevMap
              rw [if_neg h1, if_neg h2, if_neg h3, if_neg h4, if_neg h5]
            rw [ht, ht]

lemma mem_filterTokens {ts : List (List Char)} {t : List Char}
    (h : t ∈ filterTokens ts) :
    t ≠ [] ∧ STOPWORDS.contains t = false ∧ ∃ t₀ ∈ ts, t = abbrevMap t₀ := by
  unfold filterTokens at h
  have h1 := List.mem_filter.mp h
  obtain ⟨t₀, ht₀, he⟩ := List.mem_map.mp h1.1
  have h2 := h1.2
  simp only [Bool.and_eq_true, Bool.not_eq_true'] at h2
  refine ⟨?_, h2.2, t₀, ht₀, he.symm⟩
  intro hnil
  rw [hnil] at h2
  simp at h2

lemma mem_preKeyL {l : List Char} {c : Char} (h : c ∈ preKeyL l) :
    isAl c = true ∨ c = ' ' := by
  have h1 := mem_stripWs h
  rcases mem_subRunsAux h1 with ⟨h2, h3⟩ | h2
  · rcases mem_subRunsAux h2 with ⟨_, h5⟩ | h4
    · left
      cases hia : isAl c with
      | true => rfl
      | false =>
        exfalso
        have : (!isAl c && !isWs c) = true := by rw [hia, h3]; rfl
        simp only [this] at h5
        exact Bool.noConfusion h5
    · right; exact h4
  · right; exact h2

lemma preKeyL_id {l : List Char}
    (hmem : ∀ c ∈ l, isAl c = true ∨ c = ' ')
    (hch : NoTwoSp l)
    (hh : ∀ c, l.head? = some c → isWs c = false)
    (hl : ∀ c, l.getLast? = some c → isWs c = false) :
    preKeyL l = l := by
  have hstr : stripWs l = l := stripWs_eq_self hh hl
  have hmap : l.map lowerChar = l :=
    map_id_of fun c hc => lowerChar_eq_self (hmem c hc)
  have hacc : remove_accentsL l = l :=
    flatMap_id_of fun c hc => accentExp_of_al_or_space (hmem c hc)
  have hsub : subRuns (fun c => !isAl c && !isWs c) l = l := by
    refine subRunsAux_eq_self l false (fun c hc hpc => ?_) hch
      (fun hb => Bool.noConfusion hb)
    rcases hmem c hc with h1 | h1
    · exact absurd hpc (by simp [h1])
    · exact h1
  have hcol : collapseWs l = l := by
    refine subRunsAux_eq_self l false (fun c hc hpc => ?_) hch
      (fun hb => Bool.noConfusion hb)
    rcases hmem c hc with h1 | h1
    · rw [isAl_isWs h1] at hpc; exact Bool.noConfusion hpc
    · exact h1
  rw [preKeyL, hstr, hmap, hacc, hsub, hcol, hstr]

lemma toks_good (x : List Char) :
    ∀ t ∈ filterTokens (wordsBy isWs (preKeyL x)),
      t ≠ [] ∧ (∀ c ∈ t, isAl c = true) ∧ STOPWORDS.contains t = false ∧
        abbrevMap t = t := by
  intro t ht
  obtain ⟨hne, hstop, t₀, ht₀, heq⟩ := mem_filterTokens ht
  have hchars : ∀ c ∈ t, isAl c = true := by
    intro c hc
    rw [heq] at hc
    rcases abbrevMap_chars hc with h1 | h1
    · rcases mem_mem_wordsAux ht₀ h1 with h2 | ⟨h2, h3⟩
      · simp at h2
      · rcases mem_preKeyL h2 with h4 | h4
        · exact h4
        · rw [h4] at h3
          exact absurd h3 (by simp [isWs])
    · exact nuoc_al c h1
  have hfix : abbrevMap t = t := by
    rcases abbrevMap_idem (t := t₀) with h1 | h1
    · rw [heq, h1] at hne; exact absurd rfl hne
    · rw [heq, h1]
  exact ⟨hne, hchars, hstop, hfix⟩

lemma preKeyL_nil : preKeyL [] = [] := by decide

lemma normalize_keyL_nil : normalize_keyL [] = [] := by decide

/-- Idempotence of `normalize_key`. -/
lemma normalize_keyL_idem (x : List Char) :
    normalize_keyL (normalize_keyL x) = normalize_keyL x := by
  by_cases hpre : (preKeyL x).isEmpty = true
  · have hx : normalize_keyL x = [] := by
      rw [normalize_keyL, if_pos hpre]
    rw [hx, normalize_keyL_nil]
  · have hy : normalize_keyL x =
        unwords (filterTokens (wordsBy isWs (preKeyL x))) := by
      rw [normalize_keyL, if_neg hpre]
    have hgood := toks_good x
    cases hts : filterTokens (wordsBy isWs (preKeyL x)) with
    | nil => rw [hy, hts, unwords, normalize_keyL_nil]
    | cons t ts' =>
      rw [hts] at hy hgood
      have hGT : GoodToks (t :: ts') := fun u hu =>
        ⟨(hgood u hu).1, (hgood u hu).2.1⟩
      have hyne : unwords (t :: ts') ≠ [] :=
        unwords_ne_nil (hgood t (List.mem_cons_self _ _)).1
      have hymem : ∀ c ∈ unwords (t :: ts'), isAl c = true ∨ c = ' ' := by
        intro c hc
        rcases mem_unwords hc with ⟨u, hu, hcu⟩ | h1
        · exact Or.inl ((hgood u hu).2.1 c hcu)
        · exact Or.inr h1
      have hpid : preKeyL (unwords (t :: ts')) = unwords (t :: ts') :=
        preKeyL_id hymem (noTwoSp_unwords hGT)
          (fun c hc => head?_unwords_not_ws hGT hc)
          (fun c hc => getLast?_unwords_not_ws hGT hc)
      rw [hy, normalize_keyL]
      simp only [hpid]
      rw [if_neg (by simp [hyne])]
      rw [wordsBy_unwords (by decide) (fun u hu =>
        ⟨(hgood u hu).1, fun c hc => isAl_isWs ((hgood u hu).2.1 c hc)⟩)]
      have hft : filterTokens (t :: ts') = t :: ts' := by
        unfold filterTokens
        have hmapid : List.map abbrevMap (t :: ts') = t :: ts' := by
          rw [List.map_congr_left (g := id) (fun u hu => (hgood u hu).2.2.2)]
          exact List.map_id _
        rw [hmapid]
        apply List.filter_eq_self.mpr
        intro u hu
        simp only [Bool.and_eq_true, Bool.not_eq_true']
        exact ⟨by simp [(hgood u hu).1], (hgood u hu).2.2.1⟩
      rw [hft]

lemma normalize_alias_normL_idem (l : List Char) :
    normalize_alias_normL (normalize_alias_normL l) = normalize_alias_normL l :=
  normalize_alias_normL_id (fun _ hc => mem_normalize_alias_normL hc)
    (noTwoSp_normalize_alias_normL l)
    (fun _ hc => head?_stripWs_not hc)
    (fun _ hc => getLast?_stripWs_not hc)

/-! ### Claim C1 -/

/-- C1 (counterexample): the three normalization functions are NOT
extensionally equal: on the input "it" (a dedup-side stopword),
`normalize_key` returns the empty string while `normalize_alias_norm`
returns "it", so the claimed three-way extensional equality fails. -/
theorem C1_counterexample :
    ¬ (∀ s : String, normalize_alias_norm s = normalize_key s ∧
        normalize_alias_norm s = norm_text s) := by
  intro h
  exact absurd (h "it").1 (by decide)

/-- C1 (amended): the parser-side normalization (`normalize_alias_norm`)
and the backfill normalization (`norm_text`) are extensionally equal —
one shared pure function — but the dedup-side `normalize_key` is not
extensionally equal to them: it additionally applies abbreviation
rewriting and stopword dropping ("it" is a stopword, mapped to ""). -/
theorem C1_amended :
    (∀ s : String, normalize_alias_norm s = norm_text s) ∧
    normalize_key "it" ≠ normalize_alias_norm "it" := by
  constructor
  · intro s
    exact congrArg String.mk (alias_eq_norm_textL s.data)
  · decide

/-! ### Claim C9 -/

/-- C9: the Normalizer is idempotent: `normalize(normalize(x)) =
normalize(x)` holds for every string, both for the parser-side
`normalize_alias_norm` and for the dedup-side `normalize_key`. -/
theorem C9_normalizer_idempotent (s : String) :
    normalize_alias_norm (normalize_alias_norm s) = normalize_alias_norm s ∧
    normalize_key (normalize_key s) = normalize_key s :=
  ⟨congrArg String.mk (normalize_alias_normL_idem s.data),
   congrArg String.mk (normalize_keyL_idem s.data)⟩

/-! ### Candidate filtering and decision classifier
(phase2_alias_job.py lines 69-133 and 281-308) -/

/-- `looks_bad_key` (phase2_alias_job.py lines 69-79): empty, digit,
length ≥ 40, or more than 8 whitespace-separated tokens. -/
def looks_bad_keyL (key : List Char) : Bool :=
  key.isEmpty || key.any isDig || 40 ≤ key.length ||
    8 < (wordsBy isWs key).length

/-- `looks_bad_key` on `String`. -/
def looks_bad_key (key : String) : Bool := looks_bad_keyL key.data

/-- `PACKAGING_WORDS` (phase2_alias_job.py lines 81-84). -/
def PACKAGING_WORDS : List (List Char) :=
  ["hop".data, "goi".data, "chai".data, "lon".data, "hu".data, "bi".data,
   "tui".data, "loai".data, "th".data, "lo".data, "thung".data,
   "vien".data, "que".data, "mieng".data]

/-- `DANGEROUS_NEAR_PAIRS` (phase2_alias_job.py lines 86-92). -/
def DANGEROUS_NEAR_PAIRS : List (List Char × List Char) :=
  [("canh".data, "chanh".data), ("chanh".data, "canh".data),
   ("suon".data, "sun".data), ("sun".data, "suon".data),
   ("ga".data, "gao".data), ("gao".data, "ga".data),
   ("ca".data, "cua".data), ("cua".data, "ca".data),
   ("chan".data, "cha".data), ("cha".data, "chan".data)]

/-- `PROTEIN_TOKENS` (phase2_alias_job.py line 94). -/
def PROTEIN_TOKENS : List (List Char) :=
  ["ga".data, "heo".data, "bo".data, "tom".data, "ca".data, "cua".data,
   "de".data, "vit".data, "lon".data]

/-- `tokens` (phase2_alias_job.py lines 96-97): whitespace-split,
dropping empty tokens. -/
def tokensOf (n : List Char) : List (List Char) := wordsBy isWs n

/-- `has_packaging_suffix` (phase2_alias_job.py lines 99-108). -/
def has_packaging_suffix (alias_norm canon_norm : List Char) : Bool :=
  let ct := tokensOf canon_norm
  let ta := tokensOf alias_norm
  if ct.isEmpty || ta.length ≤ ct.length then false
  else if ta.take ct.length ≠ ct then false
  else (ta.drop ct.length).all (fun t => PACKAGING_WORDS.contains t)

/-- `is_format_only` (phase2_alias_job.py lines 110-112). -/
def is_format_only (canon_norm alias_norm : List Char) : Bool :=
  canon_norm = alias_norm

/-- `has_dangerous_pair` (phase2_alias_job.py lines 114-120): some table
pair has its first token among the canonical tokens and its second among
the alias tokens. -/
def has_dangerous_pair (canon_norm alias_norm : List Char) : Bool :=
  DANGEROUS_NEAR_PAIRS.any fun pq =>
    (tokensOf canon_norm).contains pq.1 && (tokensOf alias_norm).contains pq.2

/-- The protein tokens present in a normalized key, kept in the fixed
order of `PROTEIN_TOKENS` so that list equality coincides with the set
equality used by the Python code. -/
def proteinIn (n : List Char) : List (List Char) :=
  PROTEIN_TOKENS.filter fun p => (tokensOf n).contains p

/-- `protein_mismatch` (phase2_alias_job.py lines 122-126): both sides
mention proteins and the protein sets differ. -/
def protein_mismatch (canon_norm alias_norm : List Char) : Bool :=
  !(proteinIn canon_norm).isEmpty && !(proteinIn alias_norm).isEmpty &&
    proteinIn canon_norm ≠ proteinIn alias_norm

/-- `last_token_diff` (phase2_alias_job.py lines 128-133). -/
def last_token_diff (canon_norm alias_norm : List Char) : Bool :=
  match (tokensOf canon_norm).getLast?, (tokensOf alias_norm).getLast? with
  | some x, some y => x ≠ y
  | _, _ => false

/-- The decision computation of `export_csv` (phase2_alias_job.py lines
282-308) for one suggestion: the reject rules in order, then the two
approve rules, else manual review.  The float threshold 0.98 is the
exact rational 98/100. -/
def classify (canonical_key alias_key : List Char) (score : ℚ)
    (approve_packaging : Bool) : String :=
  if looks_bad_keyL alias_key || looks_bad_keyL canonical_key then "auto_reject"
  else if protein_mismatch (normalize_keyL canonical_key) (normalize_keyL alias_key) then
    "auto_reject"
  else if has_dangerous_pair (normalize_keyL canonical_key) (normalize_keyL alias_key) then
    "auto_reject"
  else if last_token_diff (normalize_keyL canonical_key) (normalize_keyL alias_key) &&
      score < 98 / 100 then "auto_reject"
  else if is_format_only (normalize_keyL canonical_key) (normalize_keyL alias_key) then
    "auto_approve"
  else if approve_packaging &&
      has_packaging_suffix (normalize_keyL alias_key) (normalize_keyL canonical_key) then
    "auto_approve"
  else "manual_review"

lemma protein_mismatch_self (n : List Char) : protein_mismatch n n = false := by
  simp [protein_mismatch]

lemma last_token_diff_self (n : List Char) : last_token_diff n n = false := by
  unfold last_token_diff
  cases h : (tokensOf n).getLast? with
  | none => rfl
  | some x => simp

/-! ### Claim C3 -/

/-- C3 (counterexample): "cành chanh" and "canh chanh" have exactly
equal normalized forms (a pure diacritic difference), yet the classifier
outputs auto_reject, not auto_approve: the equal normalized form
contains both tokens of the dangerous near-pair ("canh", "chanh"), and
the dangerous-pair reject rule fires before the format-only approve
rule. -/
theorem C3_counterexample :
    normalize_key "canh chanh" = normalize_key "cành chanh" ∧
    classify "canh chanh".data "cành chanh".data 1 true = "auto_reject" := by
  constructor
  · decide
  · decide

/-- C3 (amended): for a suggestion whose two keys have exactly equal
normalized forms, the classifier outputs auto_approve provided neither
raw key is a disqualified candidate (`looks_bad_key`, always true for
suggestions emitted by the generator, which filters such keys out) and
the shared normalized form does not itself contain a dangerous
near-miss token pair. -/
theorem C3_amended (ck ak : List Char) (score : ℚ) (ap : Bool)
    (hnorm : normalize_keyL ck = normalize_keyL ak)
    (hbc : looks_bad_keyL ck = false) (hba : looks_bad_keyL ak = false)
    (hdng : has_dangerous_pair (normalize_keyL ck) (normalize_keyL ak) = false) :
    classify ck ak score ap = "auto_approve" := by
  unfold classify
  rw [hbc, hba, hdng, ← hnorm, protein_mismatch_self, last_token_diff_self]
  simp [is_format_only]

/-- Witness for C3 (amended): "Pho" vs "phở" (case + diacritic only)
is auto-approved. -/
theorem C3_amended_witness :
    classify "Pho".data "phở".data 1 false = "auto_approve" :=
  C3_amended "Pho".data "phở".data 1 false (by decide) (by decide)
    (by decide) (by decide)

/-! ### Similarity: model of `difflib.SequenceMatcher(None, a, b).ratio()`
(phase2_alias_job.py lines 63-67).  `ratio` is `2*M/T` where `T` is the
total length and `M` the total size of the matching blocks found by
repeatedly taking the longest common block (earliest in `a`, then in
`b`, on ties) and recursing on both sides.  The keys compared here are
far below the 200-character autojunk threshold, so autojunk never
fires.  Scores are exact rationals; the Python floats are only ever
compared against thresholds. -/

/-- Length of the longest common prefix. -/
def cpl : List Char → List Char → Nat
  | a :: as, b :: bs => if a = b then cpl as bs + 1 else 0
  | _, _ => 0

lemma cpl_le_left : ∀ (a b : List Char), cpl a b ≤ a.length := by
  intro a
  induction a with
  | nil => intro b; cases b <;> simp [cpl]
  | cons x xs ih =>
    intro b
    cases b with
    | nil => simp [cpl]
    | cons y ys =>
      rw [cpl]
      by_cases hxy : x = y
      · rw [if_pos hxy]
        simpa using ih ys
      · rw [if_neg hxy]; simp

lemma cpl_le_right : ∀ (a b : List Char), cpl a b ≤ b.length := by
  intro a
  induction a with
  | nil => intro b; cases b <;> simp [cpl]
  | cons x xs ih =>
    intro b
    cases b with
    | nil => simp [cpl]
    | cons y ys =>
      rw [cpl]
      by_cases hxy : x = y
      · rw [if_pos hxy]
        simpa using ih ys
      · rw [if_neg hxy]; simp

/-- `find_longest_match`: the longest matching block `(i, j, k)`,
maximizing `k`, breaking ties by smallest `i`, then smallest `j`
(row-major scan with strict improvement). -/
def bestMatch (a b : List Char) : Nat × Nat × Nat :=
  (List.range a.length).foldl (fun best i =>
    (List.range b.length).foldl (fun best j =>
      if best.2.2 < cpl (a.drop i) (b.drop j) then (i, j, cpl (a.drop i) (b.drop j))
      else best) best) (0, 0, 0)

lemma foldl_pred {α β : Type} (P : β → Prop) (f : β → α → β) :
    ∀ (l : List α) (init : β), P init →
      (∀ acc x, P acc → P (f acc x)) → P (l.foldl f init) := by
  intro l
  induction l with
  | nil => intro init h0 _; exact h0
  | cons x xs ih =>
    intro init h0 hstep
    exact ih (f init x) (hstep init x h0) hstep

lemma bestMatch_spec (a b : List Char) :
    (bestMatch a b).2.2 = 0 ∨
      (bestMatch a b).2.2 =
        cpl (a.drop (bestMatch a b).1) (b.drop (bestMatch a b).2.1) := by
  unfold bestMatch
  apply foldl_pred
    (fun best : Nat × Nat × Nat =>
      best.2.2 = 0 ∨ best.2.2 = cpl (a.drop best.1) (b.drop best.2.1))
  · exact Or.inl rfl
  · intro acc i hacc
    apply foldl_pred
      (fun best : Nat × Nat × Nat =>
        best.2.2 = 0 ∨ best.2.2 = cpl (a.drop best.1) (b.drop best.2.1))
    · exact hacc
    · intro acc2 j hacc2
      by_cases h : acc2.2.2 < cpl (a.drop i) (b.drop j)
      · rw [if_pos h]; exact Or.inr rfl
      · rw [if_neg h]; exact hacc2

/-- Total matched size over all matching blocks (recursive longest-block
decomposition, as in `get_matching_blocks`), with an explicit recursion
budget so the definition is structural: every recursive call strictly
shrinks the combined length, so the initial budget `a.length + b.length`
is never exhausted and the `0` base case is unreachable. -/
def matchTotalF : Nat → List Char → List Char → Nat
  | 0, _, _ => 0
  | fuel + 1, a, b =>
    if (bestMatch a b).2.2 = 0 then 0
    else
      matchTotalF fuel (a.take (bestMatch a b).1) (b.take (bestMatch a b).2.1) +
        (bestMatch a b).2.2 +
        matchTotalF fuel (a.drop ((bestMatch a b).1 + (bestMatch a b).2.2))
          (b.drop ((bestMatch a b).2.1 + (bestMatch a b).2.2))

/-- Total matched size between two strings. -/
def matchTotal (a b : List Char) : Nat :=
  matchTotalF (a.length + b.length) a b

/-- `similarity` (phase2_alias_job.py lines 63-67): `2*M/T`, built with
`mkRat` (the same rational as the division, in kernel-computable
form). -/
def similarityL (a b : List Char) : ℚ :=
  if a.isEmpty || b.isEmpty then 0
  else mkRat (2 * matchTotal a b) (a.length + b.length)

/-- `similarity` on `String`. -/
def similarity (a b : String) : ℚ := similarityL a.data b.data

/-! ### Candidate generator (phase2_alias_job.py lines 138-267) -/

/-- Stable insertion: place `x` before the first element `y` with
`le x y`. -/
def insertLe {α : Type} (le : α → α → Bool) (x : α) : List α → List α
  | [] => [x]
  | y :: ys => if le x y then x :: y :: ys else y :: insertLe le x ys

/-- Stable sort (the model of Python's stable `sorted`; a stable sort
under a total preorder is uniquely determined, so insertion sort agrees
with Timsort here). -/
def sortStable {α : Type} (le : α → α → Bool) : List α → List α
  | [] => []
  | x :: xs => insertLe le x (sortStable le xs)

lemma mem_insertLe {α : Type} {le : α → α → Bool} {a x : α} :
    ∀ {l : List α}, a ∈ insertLe le x l → a = x ∨ a ∈ l := by
  intro l
  induction l with
  | nil => intro h; exact Or.inl (List.mem_singleton.mp h)
  | cons y ys ih =>
    intro h
    rw [insertLe] at h
    by_cases hle : le x y = true
    · rw [if_pos hle] at h
      rcases List.mem_cons.mp h with h1 | h1
      · exact Or.inl h1
      · exact Or.inr h1
    · rw [if_neg hle] at h
      rcases List.mem_cons.mp h with h1 | h1
      · exact Or.inr (h1 ▸ List.mem_cons_self _ _)
      · rcases ih h1 with h2 | h2
        · exact Or.inl h2
        · exact Or.inr (List.mem_cons_of_mem _ h2)

lemma mem_sortStable {α : Type} {le : α → α → Bool} {a : α} :
    ∀ {l : List α}, a ∈ sortStable le l → a ∈ l := by
  intro l
  induction l with
  | nil => intro h; exact h
  | cons x xs ih =>
    intro h
    rcases mem_insertLe h with h1 | h1
    · exact h1 ▸ List.mem_cons_self _ _
    · exact List.mem_cons_of_mem _ (ih h1)

/-- `IngredientRow` (phase2_alias_job.py lines 138-143): `norm` is set to
`normalize_key key` by `build_ingredients`. -/
structure IngredientRow where
  id : String
  key : String
  norm : List Char
  used_count : Nat
deriving DecidableEq, Repr

/-- `Suggestion` (phase2_alias_job.py lines 145-154).  The `reason`
field's float formatting is not modelled; it carries the bucket tag. -/
structure Suggestion where
  canonical_id : String
  canonical_key : String
  alias_id : String
  alias_key : String
  score : ℚ
  used_count_canonical : Nat
  used_count_alias : Nat
  reason : String
deriving DecidableEq, Repr

/-- `bucket_key` (phase2_alias_job.py lines 194-201): first character
and length band of the normalized key. -/
def bucket_key (n : List Char) : String :=
  match n with
  | [] => "empty"
  | c :: _ => String.mk [c, ':'] ++ toString (n.length / 5 * 5)

/-- One step of insertion-ordered bucket grouping (Python dicts preserve
key insertion order; values accumulate in append order). -/
def addBucket (acc : List (String × List IngredientRow)) (k : String)
    (r : IngredientRow) : List (String × List IngredientRow) :=
  match acc with
  | [] => [(k, [r])]
  | (k', l) :: rest =>
    if k' = k then (k', l ++ [r]) :: rest else (k', l) :: addBucket rest k r

/-- `buckets` of `generate_suggestions` (lines 210-212). -/
def bucketsOf (rows : List IngredientRow) : List (String × List IngredientRow) :=
  rows.foldl (fun acc r => addBucket acc (bucket_key r.norm) r) []

/-- Unordered pairs `(items[i], items[j])`, `i < j`, in loop order
(lines 225-231). -/
def pairsFrom : List IngredientRow → List (IngredientRow × IngredientRow)
  | [] => []
  | a :: rest => rest.map (fun b => (a, b)) ++ pairsFrom rest

/-- `key.strip().lower()`, used for the identical-key skip (line 249). -/
def keyFold (s : String) : List Char := (stripWs s.data).map lowerChar

/-- Build the emitted `Suggestion` (lines 252-263). -/
def mkSuggestion (canonical alias_row : IngredientRow) (sc : ℚ) : Suggestion :=
  { canonical_id := canonical.id, canonical_key := canonical.key,
    alias_id := alias_row.id, alias_key := alias_row.key, score := sc,
    used_count_canonical := canonical.used_count,
    used_count_alias := alias_row.used_count,
    reason := "norm_sim bucket=" ++ bucket_key canonical.norm }

/-- The canonical-selection test (line 243): `a` wins on strictly higher
usage, or equal usage and normalized key no longer than `b`'s. -/
def canonFirst (a b : IngredientRow) : Bool :=
  (b.used_count < a.used_count) ||
    (a.used_count = b.used_count && a.norm.length ≤ b.norm.length)

/-- The inner pair loop (lines 225-263): threads `pair_count`, skips
wide length gaps without counting, counts every scored pair, applies the
threshold, picks canonical/alias, and skips pairs whose raw keys
coincide after trim/casefold.  The `Bool` result signals the early
`return` at the pair cap (line 227-228), which aborts all remaining
work. -/
def procPairs (minScore : ℚ) (maxPairs : Nat) :
    List (IngredientRow × IngredientRow) → Nat → (List Suggestion × Nat × Bool)
  | [], cnt => ([], cnt, false)
  | (a, b) :: rest, cnt =>
    if maxPairs ≤ cnt then ([], cnt, true)
    else if 8 ≤ ((a.norm.length : Int) - (b.norm.length : Int)).natAbs then
      procPairs minScore maxPairs rest cnt
    else if similarityL a.norm b.norm < minScore then
      procPairs minScore maxPairs rest (cnt + 1)
    else if canonFirst a b then
      if keyFold a.key = keyFold b.key then
        procPairs minScore maxPairs rest (cnt + 1)
      else
        match procPairs minScore maxPairs rest (cnt + 1) with
        | (sugs, cfin, ab) =>
          (mkSuggestion a b (similarityL a.norm b.norm) :: sugs, cfin, ab)
    else
      if keyFold b.key = keyFold a.key then
        procPairs minScore maxPairs rest (cnt + 1)
      else
        match procPairs minScore maxPairs rest (cnt + 1) with
        | (sugs, cfin, ab) =>
          (mkSuggestion b a (similarityL a.norm b.norm) :: sugs, cfin, ab)

/-- The bucket loop (lines 217-263): buckets with fewer than two items
are skipped; items are stably sorted by usage descending; an early
return inside a bucket aborts the remaining buckets. -/
def genBuckets (minScore : ℚ) (maxPairs : Nat) :
    List (String × List IngredientRow) → Nat → (List Suggestion × Nat × Bool)
  | [], cnt => ([], cnt, false)
  | (_, items) :: rest, cnt =>
    if items.length < 2 then genBuckets minScore maxPairs rest cnt
    else
      if (procPairs minScore maxPairs
          (pairsFrom (sortStable (fun x y => y.used_count ≤ x.used_count) items))
          cnt).2.2 then
        ((procPairs minScore maxPairs
          (pairsFrom (sortStable (fun x y => y.used_count ≤ x.used_count) items))
          cnt).1,
         (procPairs minScore maxPairs
          (pairsFrom (sortStable (fun x y => y.used_count ≤ x.used_count) items))
          cnt).2.1, true)
      else
        ((procPairs minScore maxPairs
          (pairsFrom (sortStable (fun x y => y.used_count ≤ x.used_count) items))
          cnt).1 ++
          (genBuckets minScore maxPairs rest
            (procPairs minScore maxPairs
              (pairsFrom (sortStable (fun x y => y.used_count ≤ x.used_count) items))
              cnt).2.1).1,
         (genBuckets minScore maxPairs rest
            (procPairs minScore maxPairs
              (pairsFrom (sortStable (fun x y => y.used_count ≤ x.used_count) items))
              cnt).2.1).2.1,
         (genBuckets minScore maxPairs rest
            (procPairs minScore maxPairs
              (pairsFrom (sortStable (fun x y => y.used_count ≤ x.used_count) items))
              cnt).2.1).2.2)

/-- `generate_suggestions` (phase2_alias_job.py lines 203-267): filter
out bad keys, bucket, compare within buckets under the pair cap, and —
unless the early return fired — stably sort by (score desc, alias usage
desc). -/
def generate_suggestions (ingredients : List IngredientRow)
    (min_score : ℚ) (max_pairs : Nat) : List Suggestion :=
  if (genBuckets min_score max_pairs
      (bucketsOf (ingredients.filter fun x => !x.norm.isEmpty && !looks_bad_key x.key))
      0).2.2 then
    (genBuckets min_score max_pairs
      (bucketsOf (ingredients.filter fun x => !x.norm.isEmpty && !looks_bad_key x.key))
      0).1
  else
    sortStable
      (fun s t => (t.score < s.score) ||
        (t.score = s.score && t.used_count_alias ≤ s.used_count_alias))
      (genBuckets min_score max_pairs
        (bucketsOf (ingredients.filter fun x => !x.norm.isEmpty && !looks_bad_key x.key))
        0).1

/-! ### Claim C6: generator invariant -/

lemma canonFirst_iff {a b : IngredientRow} :
    canonFirst a b = true ↔
      b.used_count < a.used_count ∨
        (a.used_count = b.used_count ∧ a.norm.length ≤ b.norm.length) := by
  simp [canonFirst, Bool.or_eq_true, Bool.and_eq_true, decide_eq_true_eq]

/-- What holds of every suggestion built from the ordered pair `(a, b)`
of the inner loop. -/
def SuggOk (minScore : ℚ) (s : Suggestion) (a b : IngredientRow) : Prop :=
  minScore ≤ similarityL a.norm b.norm ∧
  ((s = mkSuggestion a b (similarityL a.norm b.norm) ∧
      (b.used_count < a.used_count ∨
        (a.used_count = b.used_count ∧ a.norm.length ≤ b.norm.length))) ∨
   (s = mkSuggestion b a (similarityL a.norm b.norm) ∧
      (a.used_count < b.used_count ∨
        (b.used_count = a.used_count ∧ b.norm.length ≤ a.norm.length))))

lemma procPairs_sound {minScore : ℚ} {maxPairs : Nat} :
    ∀ (prs : List (IngredientRow × IngredientRow)) (cnt : Nat) (s : Suggestion),
      s ∈ (procPairs minScore maxPairs prs cnt).1 →
      ∃ a b, (a, b) ∈ prs ∧ SuggOk minScore s a b := by
  intro prs
  induction prs with
  | nil => intro cnt s h; simp [procPairs] at h
  | cons p rest ih =>
    intro cnt s h
    obtain ⟨a, b⟩ := p
    rw [procPairs] at h
    by_cases h1 : maxPairs ≤ cnt
    · rw [if_pos h1] at h; simp at h
    · rw [if_neg h1] at h
      by_cases h2 : 8 ≤ ((a.norm.length : Int) - (b.norm.length : Int)).natAbs
      · rw [if_pos h2] at h
        obtain ⟨x, y, hxy, hok⟩ := ih cnt s h
        exact ⟨x, y, List.mem_cons_of_mem _ hxy, hok⟩
      · rw [if_neg h2] at h
        by_cases h3 : similarityL a.norm b.norm < minScore
        · rw [if_pos h3] at h
          obtain ⟨x, y, hxy, hok⟩ := ih _ s h
          exact ⟨x, y, List.mem_cons_of_mem _ hxy, hok⟩
        · rw [if_neg h3] at h
          have hge : minScore ≤ similarityL a.norm b.norm := le_of_not_lt h3
          by_cases h4 : canonFirst a b = true
          · rw [if_pos h4] at h
            by_cases h5 : keyFold a.key = keyFold b.key
            · rw [if_pos h5] at h
              obtain ⟨x, y, hxy, hok⟩ := ih _ s h
              exact ⟨x, y, List.mem_cons_of_mem _ hxy, hok⟩
            · rw [if_neg h5] at h
              rcases List.mem_cons.mp h with he | he
              · exact ⟨a, b, List.mem_cons_self _ _,
                  hge, Or.inl ⟨he, canonFirst_iff.mp h4⟩⟩
              · obtain ⟨x, y, hxy, hok⟩ := ih _ s he
                exact ⟨x, y, List.mem_cons_of_mem _ hxy, hok⟩
          · rw [if_neg h4] at h
            by_cases h5 : keyFold b.key = keyFold a.key
            · rw [if_pos h5] at h
              obtain ⟨x, y, hxy, hok⟩ := ih _ s h
              exact ⟨x, y, List.mem_cons_of_mem _ hxy, hok⟩
            · rw [if_neg h5] at h
              rcases List.mem_cons.mp h with he | he
              · refine ⟨a, b, List.mem_cons_self _ _, hge, Or.inr ⟨he, ?_⟩⟩
                have h6 : ¬(b.used_count < a.used_count ∨
                    (a.used_count = b.used_count ∧ a.norm.length ≤ b.norm.length)) :=
                  fun hcon => h4 (canonFirst_iff.mpr hcon)
                push_neg at h6
                rcases Nat.lt_or_ge a.used_count b.used_count with h7 | h7
                · exact Or.inl h7
                · have h8 : a.used_count = b.used_count := by omega
                  exact Or.inr ⟨h8.symm, by
                    have := h6.2 h8
                    omega⟩
              · obtain ⟨x, y, hxy, hok⟩ := ih _ s he
                exact ⟨x, y, List.mem_cons_of_mem _ hxy, hok⟩

lemma mem_pairsFrom {x y : IngredientRow} :
    ∀ {l : List IngredientRow}, (x, y) ∈ pairsFrom l → x ∈ l ∧ y ∈ l := by
  intro l
  induction l with
  | nil => intro h; simp [pairsFrom] at h
  | cons a rest ih =>
    intro h
    rw [pairsFrom] at h
    rcases List.mem_append.mp h with h1 | h1
    · obtain ⟨b, hb, he⟩ := List.mem_map.mp h1
      have he1 : a = x := congrArg Prod.fst he
      have he2 : b = y := congrArg Prod.snd he
      subst he1; subst he2
      exact ⟨List.mem_cons_self _ _, List.mem_cons_of_mem _ hb⟩
    · obtain ⟨hx, hy⟩ := ih h1
      exact ⟨List.mem_cons_of_mem _ hx, List.mem_cons_of_mem _ hy⟩

lemma genBuckets_sound {minScore : ℚ} {maxPairs : Nat} :
    ∀ (bks : List (String × List IngredientRow)) (cnt : Nat) (s : Suggestion),
      s ∈ (genBuckets minScore maxPairs bks cnt).1 →
      ∃ kl ∈ bks, ∃ a b, a ∈ kl.2 ∧ b ∈ kl.2 ∧ SuggOk minScore s a b := by
  intro bks
  induction bks with
  | nil => intro cnt s h; simp [genBuckets] at h
  | cons kl rest ih =>
    intro cnt s h
    obtain ⟨k, items⟩ := kl
    rw [genBuckets] at h
    by_cases h1 : items.length < 2
    · rw [if_pos h1] at h
      obtain ⟨kl2, hkl2, hrest⟩ := ih cnt s h
      exact ⟨kl2, List.mem_cons_of_mem _ hkl2, hrest⟩
    · rw [if_neg h1] at h
      have hfromPair :
          ∀ {s' : Suggestion} {cnt0 : Nat},
            s' ∈ (procPairs minScore maxPairs
              (pairsFrom (sortStable (fun x y => y.used_count ≤ x.used_count) items))
                cnt0).1 →
            ∃ a b, a ∈ items ∧ b ∈ items ∧ SuggOk minScore s' a b := by
        intro s' cnt0 hs'
        obtain ⟨a, b, hab, hok⟩ := procPairs_sound _ _ _ hs'
        obtain ⟨ha, hb⟩ := mem_pairsFrom hab
        exact ⟨a, b, mem_sortStable ha, mem_sortStable hb, hok⟩
      by_cases hab : (procPairs minScore maxPairs
          (pairsFrom (sortStable (fun x y => y.used_count ≤ x.used_count) items))
          cnt).2.2 = true
      · rw [if_pos hab] at h
        obtain ⟨a, b, ha, hb, hok⟩ := hfromPair h
        exact ⟨(k, items), List.mem_cons_self _ _, a, b, ha, hb, hok⟩
      · rw [if_neg hab] at h
        rcases List.mem_append.mp h with h2 | h2
        · obtain ⟨a, b, ha, hb, hok⟩ := hfromPair h2
          exact ⟨(k, items), List.mem_cons_self _ _, a, b, ha, hb, hok⟩
        · obtain ⟨kl2, hkl2, hrest⟩ := ih _ s h2
          exact ⟨kl2, List.mem_cons_of_mem _ hkl2, hrest⟩

lemma foldl_pred_mem {α β : Type} (P : β → Prop) (f : β → α → β) :
    ∀ (l : List α) (init : β), P init →
      (∀ acc x, x ∈ l → P acc → P (f acc x)) → P (l.foldl f init) := by
  intro l
  induction l with
  | nil => intro init h0 _; exact h0
  | cons x xs ih =>
    intro init h0 hstep
    exact ih (f init x) (hstep init x (List.mem_cons_self _ _) h0)
      (fun acc y hy => hstep acc y (List.mem_cons_of_mem _ hy))

lemma mem_addBucket {k : String} {r x : IngredientRow} :
    ∀ {acc : List (String × List IngredientRow)} {k0 : String}
      {l0 : List IngredientRow},
      (k0, l0) ∈ addBucket acc k r → x ∈ l0 →
      (∃ kl ∈ acc, x ∈ kl.2) ∨ x = r := by
  intro acc
  induction acc with
  | nil =>
    intro k0 l0 h hx
    rw [addBucket] at h
    have he2 : l0 = [r] := congrArg Prod.snd (List.mem_singleton.mp h)
    subst he2
    exact Or.inr (List.mem_singleton.mp hx)
  | cons kl rest ih =>
    intro k0 l0 h hx
    obtain ⟨k', l⟩ := kl
    rw [addBucket] at h
    by_cases hk : k' = k
    · rw [if_pos hk] at h
      rcases List.mem_cons.mp h with h1 | h1
      · have he2 : l0 = l ++ [r] := congrArg Prod.snd h1
        subst he2
        rcases List.mem_append.mp hx with h2 | h2
        · exact Or.inl ⟨(k', l), List.mem_cons_self _ _, h2⟩
        · exact Or.inr (List.mem_singleton.mp h2)
      · exact Or.inl ⟨(k0, l0), List.mem_cons_of_mem _ h1, hx⟩
    · rw [if_neg hk] at h
      rcases List.mem_cons.mp h with h1 | h1
      · have he2 : l0 = l := congrArg Prod.snd h1
        exact Or.inl ⟨(k', l), List.mem_cons_self _ _, he2 ▸ hx⟩
      · rcases ih h1 hx with ⟨kl2, hkl2, hx2⟩ | h2
        · exact Or.inl ⟨kl2, List.mem_cons_of_mem _ hkl2, hx2⟩
        · exact Or.inr h2

lemma mem_bucketsOf {rows : List IngredientRow} {k0 : String}
    {l0 : List IngredientRow} {x : IngredientRow}
    (h : (k0, l0) ∈ bucketsOf rows) (hx : x ∈ l0) : x ∈ rows := by
  have hP := foldl_pred_mem
    (fun acc : List (String × List IngredientRow) =>
      ∀ kl ∈ acc, ∀ y ∈ kl.2, y ∈ rows)
    (fun acc r => addBucket acc (bucket_key r.norm) r) rows [] (by simp)
    (fun acc r hr hP => by
      intro kl hkl y hy
      obtain ⟨k1, l1⟩ := kl
      rcases mem_addBucket hkl hy with ⟨kl2, hkl2, hy2⟩ | h2
      · exact hP kl2 hkl2 y hy2
      · rw [h2]; exact hr)
  exact hP (k0, l0) h x hx

lemma mkSuggestion_score (a b : IngredientRow) (sc : ℚ) :
    (mkSuggestion a b sc).score = sc := rfl

lemma mkSuggestion_ck (a b : IngredientRow) (sc : ℚ) :
    (mkSuggestion a b sc).canonical_key = a.key := rfl

lemma mkSuggestion_ak (a b : IngredientRow) (sc : ℚ) :
    (mkSuggestion a b sc).alias_key = b.key := rfl

lemma mkSuggestion_ucc (a b : IngredientRow) (sc : ℚ) :
    (mkSuggestion a b sc).used_count_canonical = a.used_count := rfl

lemma mkSuggestion_uca (a b : IngredientRow) (sc : ℚ) :
    (mkSuggestion a b sc).used_count_alias = b.used_count := rfl

lemma similarity_nk (K L : String) :
    similarity (normalize_key K) (normalize_key L) =
      similarityL (normalize_keyL K.data) (normalize_keyL L.data) := rfl

lemma length_nk (K : String) :
    (normalize_key K).length = (normalize_keyL K.data).length := rfl

/-- C6: every Suggestion emitted by `generate_suggestions` carries a
score that is at least `min_score` and equals the similarity of the
pair's normalized keys (in the loop's comparison order), and the
canonical side has strictly higher usage than the alias side, or equal
usage with a normalized key no longer than the alias side's. -/
theorem C6_generator_invariant (rows : List IngredientRow) (min_score : ℚ)
    (max_pairs : Nat) (s : Suggestion)
    (hs : s ∈ generate_suggestions rows min_score max_pairs)
    (hnorm : ∀ r ∈ rows, r.norm = normalize_keyL r.key.data) :
    min_score ≤ s.score ∧
    (s.score = similarity (normalize_key s.canonical_key) (normalize_key s.alias_key) ∨
     s.score = similarity (normalize_key s.alias_key) (normalize_key s.canonical_key)) ∧
    (s.used_count_alias < s.used_count_canonical ∨
      (s.used_count_canonical = s.used_count_alias ∧
        (normalize_key s.canonical_key).length ≤ (normalize_key s.alias_key).length)) := by
  have hclean : ∀ {s' : Suggestion},
      s' ∈ (genBuckets min_score max_pairs
        (bucketsOf (rows.filter fun x => !x.norm.isEmpty && !looks_bad_key x.key)) 0).1 →
      ∃ a b, a ∈ rows ∧ b ∈ rows ∧ SuggOk min_score s' a b := by
    intro s' hs'
    obtain ⟨kl, hkl, a, b, ha, hb, hok⟩ := genBuckets_sound _ _ _ hs'
    exact ⟨a, b, List.mem_of_mem_filter (mem_bucketsOf hkl ha),
      List.mem_of_mem_filter (mem_bucketsOf hkl hb), hok⟩
  have hmem : ∃ a b, a ∈ rows ∧ b ∈ rows ∧ SuggOk min_score s a b := by
    rw [generate_suggestions] at hs
    by_cases hab : (genBuckets min_score max_pairs
        (bucketsOf (rows.filter fun x => !x.norm.isEmpty && !looks_bad_key x.key))
        0).2.2 = true
    · rw [if_pos hab] at hs
      exact hclean hs
    · rw [if_neg hab] at hs
      exact hclean (mem_sortStable hs)
  obtain ⟨a, b, ha, hb, hok⟩ := hmem
  obtain ⟨hscore, hcase⟩ := hok
  have hna : a.norm = normalize_keyL a.key.data := hnorm a ha
  have hnb : b.norm = normalize_keyL b.key.data := hnorm b hb
  rcases hcase with ⟨he, hcanon⟩ | ⟨he, hcanon⟩ <;> subst he
  · rw [mkSuggestion_score, mkSuggestion_ck, mkSuggestion_ak, mkSuggestion_ucc,
      mkSuggestion_uca, similarity_nk, similarity_nk, length_nk, length_nk]
    refine ⟨hscore, Or.inl ?_, ?_⟩
    · rw [hna, hnb]
    · rcases hcanon with h1 | ⟨h1, h2⟩
      · exact Or.inl h1
      · refine Or.inr ⟨h1, ?_⟩
        rw [← hna, ← hnb]
        exact h2
  · rw [mkSuggestion_score, mkSuggestion_ck, mkSuggestion_ak, mkSuggestion_ucc,
      mkSuggestion_uca, similarity_nk, similarity_nk, length_nk, length_nk]
    refine ⟨hscore, Or.inr ?_, ?_⟩
    · rw [hna, hnb]
    · rcases hcanon with h1 | ⟨h1, h2⟩
      · exact Or.inl h1
      · refine Or.inr ⟨h1, ?_⟩
        rw [← hna, ← hnb]
        exact h2

set_option maxRecDepth 10000 in
/-- Witness for C6: a concrete two-row store where one suggestion is
emitted, satisfying the invariant. -/
theorem C6_generator_invariant_witness :
    let r1 : IngredientRow := ⟨"id1", "bot ngot", normalize_keyL "bot ngot".data, 5⟩
    let r2 : IngredientRow := ⟨"id2", "bot ngott", normalize_keyL "bot ngott".data, 2⟩
    let s := mkSuggestion r1 r2 (similarityL r1.norm r2.norm)
    mkRat 92 100 ≤ s.score ∧
    (s.score = similarity (normalize_key s.canonical_key) (normalize_key s.alias_key) ∨
     s.score = similarity (normalize_key s.alias_key) (normalize_key s.canonical_key)) ∧
    (s.used_count_alias < s.used_count_canonical ∨
      (s.used_count_canonical = s.used_count_alias ∧
        (normalize_key s.canonical_key).length ≤ (normalize_key s.alias_key).length)) := by
  refine C6_generator_invariant
    [⟨"id1", "bot ngot", normalize_keyL "bot ngot".data, 5⟩,
     ⟨"id2", "bot ngott", normalize_keyL "bot ngott".data, 2⟩]
    (mkRat 92 100) 2000 _ ?_ ?_
  · decide
  · decide

/-! ### Note merging, parser side (pipeline.py lines 363-378) -/

/-- `x.split(";")`: split at every semicolon, keeping empty pieces. -/
def splitOnSemiAux : List Char → List Char → List (List Char)
  | cur, [] => [cur.reverse]
  | cur, c :: cs =>
    if c = ';' then cur.reverse :: splitOnSemiAux [] cs
    else splitOnSemiAux (c :: cur) cs

/-- Split a note at semicolons. -/
def splitOnSemi (l : List Char) : List (List Char) := splitOnSemiAux [] l

/-- `[p.strip() for p in x.split(";") if p.strip()]`: the note segments
of one side. -/
def splitSegs (x : List Char) : List (List Char) :=
  ((splitOnSemi x).map stripWs).filter (fun p => !p.isEmpty)

/-- Order-preserving case-insensitive de-duplication of segments
(pipeline.py lines 368-374): keep a segment if its lowercase form was
not seen before. -/
def dedupCI : List (List Char) → List (List Char) → List (List Char)
  | [], _ => []
  | p :: ps, seen =>
    if seen.contains (p.map lowerChar) then dedupCI ps seen
    else p :: dedupCI ps ((p.map lowerChar) :: seen)

/-- `"; ".join(...)`. -/
def joinSegs : List (List Char) → List Char
  | [] => []
  | [p] => p
  | p :: ps => p ++ ';' :: ' ' :: joinSegs ps

/-- `merge_note` (pipeline.py lines 363-378, used by `promote_recipe`'s
per-recipe de-duplication): concatenate the segments of both notes,
de-duplicate them case-insensitively preserving order, join with "; ",
and cap at 200 characters (`max_len` keeps its default). -/
def merge_note (a b : Option (List Char)) : Option (List Char) :=
  let parts := (match a with | some x => splitSegs x | none => []) ++
               (match b with | some x => splitSegs x | none => [])
  let out := joinSegs (dedupCI parts [])
  if out.isEmpty then none else some (out.take 200)

/-! ### Merge executor (phase2_alias_job.py lines 322-411) -/

/-- `ingredient_aliases` row.  The `alias` column is `alias_text` here
(`alias` is a Lean command name). -/
structure AliasRow where
  ingredient_id : String
  alias_text : String
  alias_norm : String
deriving DecidableEq, Repr

/-- `recipe_ingredients` row (join-row). -/
structure RIRow where
  recipe_id : String
  ingredient_id : String
  amount : Option ℚ
  unit : Option String
  note : Option (List Char)
  role : String
deriving DecidableEq, Repr

/-- The part of the store the merge executor touches. -/
structure DB where
  aliases : List AliasRow
  ri : List RIRow
deriving DecidableEq, Repr

/-- `alias_norm_for_alias` (phase2_alias_job.py lines 322-324). -/
def alias_norm_for_alias (alias_key : String) : String :=
  normalize_key alias_key

/-- `SQL_INSERT_ALIAS` (lines 326-330): insert the alias record for the
canonical entity, `ON CONFLICT DO NOTHING`.  The conflict target is the
store's uniqueness of `(ingredient_id, alias_norm)` (the guard used by
resolve_collisions.py's `SQL_INSERT_ALIASES_TO_CANONICAL`). -/
def insertAlias (db : DB) (cid alias_key : String) : DB :=
  if db.aliases.any fun r =>
      r.ingredient_id = cid && r.alias_norm = alias_norm_for_alias alias_key then db
  else { db with aliases :=
    db.aliases ++ [⟨cid, alias_key, alias_norm_for_alias alias_key⟩] }

/-- The per-conflict row merge of `SQL_MERGE_CONFLICTS` (lines 353-369):
role becomes core if either side is core; amount/unit keep the
canonical's when present, else take the alias's; notes are concatenated
with `'; '` and capped at 200 characters (`left(..., 200)`) — with no
de-duplication. -/
def sqlMergeNote : Option (List Char) → Option (List Char) → Option (List Char)
  | none, none => none
  | none, some a => some a
  | some c, none => some c
  | some c, some a => some ((c ++ "; ".data ++ a).take 200)

/-- Merge one conflicting alias join-row into the canonical join-row. -/
def mergeRow (c a : RIRow) : RIRow :=
  { c with
    role := if c.role = "core" || a.role = "core" then "core" else c.role,
    amount := match c.amount with | some v => some v | none => a.amount,
    unit := match c.unit with | some u => some u | none => a.unit,
    note := sqlMergeNote c.note a.note }

/-- `SQL_MERGE_CONFLICTS` (lines 339-376): for every canonical join-row
whose recipe also has an alias join-row, merge the alias row in; then
delete the alias rows of those recipes.  Both the update and the delete
read the statement-start snapshot (`db.ri`), as the SQL CTE does. -/
def mergeConflicts (db : DB) (cid aid : String) : DB :=
  { db with ri :=
    (db.ri.map fun c =>
      if c.ingredient_id = cid then
        match db.ri.find? (fun a =>
            a.ingredient_id = aid && a.recipe_id = c.recipe_id) with
        | some a => mergeRow c a
        | none => c
      else c).filter fun a =>
      !(a.ingredient_id = aid &&
        db.ri.any fun c => c.ingredient_id = cid && c.recipe_id = a.recipe_id) }

/-- `SQL_UPDATE_NON_CONFLICT` (lines 378-388): repoint the remaining
alias join-rows to the canonical entity where the recipe has no
canonical row. -/
def updateNonConflict (db : DB) (cid aid : String) : DB :=
  { db with ri := db.ri.map fun a =>
      if a.ingredient_id = aid &&
          !(db.ri.any fun c => c.ingredient_id = cid && c.recipe_id = a.recipe_id) then
        { a with ingredient_id := cid }
      else a }

/-- `apply_one_pair` (phase2_alias_job.py lines 390-411), non-dry-run
path: insert the alias record, merge conflicting join-rows, repoint the
rest.  `canonical_key` is only printed in the source and is unused
here. -/
def apply_one_pair (db : DB) (canonical_id canonical_key alias_id alias_key : String) :
    DB :=
  let _ := canonical_key
  updateNonConflict
    (mergeConflicts (insertAlias db canonical_id alias_key) canonical_id alias_id)
    canonical_id alias_id

/-! ### Claim C2: merge executor idempotence -/

lemma mergeRow_recipe_id (c a : RIRow) : (mergeRow c a).recipe_id = c.recipe_id := rfl

lemma mergeRow_ingredient_id (c a : RIRow) :
    (mergeRow c a).ingredient_id = c.ingredient_id := rfl

lemma apply_one_pair_aliases_has (db : DB) (cid ckey aid akey : String) :
    ∃ r ∈ (apply_one_pair db cid ckey aid akey).aliases,
      r.ingredient_id = cid ∧ r.alias_norm = alias_norm_for_alias akey := by
  have hsh : (apply_one_pair db cid ckey aid akey).aliases =
      (insertAlias db cid akey).aliases := rfl
  rw [hsh]
  unfold insertAlias
  by_cases h : (db.aliases.any fun r =>
      r.ingredient_id = cid && r.alias_norm = alias_norm_for_alias akey) = true
  · rw [if_pos h]
    obtain ⟨r, hr, hcond⟩ := List.any_eq_true.mp h
    simp only [Bool.and_eq_true, decide_eq_true_eq] at hcond
    exact ⟨r, hr, hcond⟩
  · rw [if_neg h]
    exact ⟨⟨cid, akey, alias_norm_for_alias akey⟩, by simp, rfl, rfl⟩

lemma apply_one_pair_no_aid (db : DB) (cid ckey aid akey : String) (hne : cid ≠ aid) :
    ∀ r ∈ (apply_one_pair db cid ckey aid akey).ri, r.ingredient_id ≠ aid := by
  intro r hr
  have hshape : apply_one_pair db cid ckey aid akey =
      updateNonConflict (mergeConflicts (insertAlias db cid akey) cid aid) cid aid := rfl
  rw [hshape] at hr
  unfold updateNonConflict at hr
  simp only at hr
  obtain ⟨a, ha, he⟩ := List.mem_map.mp hr
  by_cases hcond : (a.ingredient_id = aid &&
      !((mergeConflicts (insertAlias db cid akey) cid aid).ri.any fun c =>
        c.ingredient_id = cid && c.recipe_id = a.recipe_id)) = true
  · rw [if_pos hcond] at he
    rw [← he]
    exact fun hcontra => hne hcontra
  · rw [if_neg hcond] at he
    subst he
    by_cases haid : a.ingredient_id = aid
    · exfalso
      -- a survived the delete of mergeConflicts, so its recipe has no
      -- canonical row in the pre-merge snapshot …
      have hsurv := (List.mem_filter.mp ha).2
      rw [haid] at hsurv
      simp only [decide_True, Bool.true_and, Bool.not_eq_true',
        Bool.not_eq_false] at hsurv
      -- hsurv : any over snapshot = false
      have hnone : ∀ c ∈ (insertAlias db cid akey).ri,
          ¬(c.ingredient_id = cid ∧ c.recipe_id = a.recipe_id) := by
        intro c hc hcc
        have h5 := List.any_eq_false.mp hsurv c hc
        simp only [Bool.and_eq_true, decide_eq_true_eq, not_and] at h5
        exact h5 hcc.1 hcc.2
      -- … yet the update condition failed, so such a canonical row
      -- exists in the post-merge state, whose rows keep their ids.
      have hex : ((mergeConflicts (insertAlias db cid akey) cid aid).ri.any fun c =>
          c.ingredient_id = cid && c.recipe_id = a.recipe_id) = true := by
        by_contra hno
        apply hcond
        simp only [haid, decide_True, Bool.true_and, Bool.not_eq_true']
        exact Bool.not_eq_true _ ▸ hno
      obtain ⟨c, hc, hcc⟩ := List.any_eq_true.mp hex
      simp only [Bool.and_eq_true, decide_eq_true_eq] at hcc
      have hc2 := (List.mem_filter.mp hc).1
      obtain ⟨c0, hc0, hec⟩ := List.mem_map.mp hc2
      have hids : c.ingredient_id = c0.ingredient_id ∧ c.recipe_id = c0.recipe_id := by
        rw [← hec]
        by_cases h0 : c0.ingredient_id = cid
        · rw [if_pos h0]
          cases hfind : (insertAlias db cid akey).ri.find? fun x =>
              x.ingredient_id = aid && x.recipe_id = c0.recipe_id with
          | none => exact ⟨rfl, rfl⟩
          | some a' => exact ⟨mergeRow_ingredient_id c0 a', mergeRow_recipe_id c0 a'⟩
        · rw [if_neg h0]; exact ⟨rfl, rfl⟩
      exact hnone c0 hc0 ⟨hids.1 ▸ hcc.1, hids.2 ▸ hcc.2⟩
    · exact haid

/-- C2: the merge executor is idempotent: for every store state and
every approved canonical←alias pair (two distinct entities), applying
`apply_one_pair` twice yields exactly the state of applying it once —
same aliases, same join-rows, same notes, and no error. -/
theorem C2_merge_executor_idempotent (db : DB) (cid ckey aid akey : String)
    (hne : cid ≠ aid) :
    apply_one_pair (apply_one_pair db cid ckey aid akey) cid ckey aid akey =
      apply_one_pair db cid ckey aid akey := by
  have hnoaid := apply_one_pair_no_aid db cid ckey aid akey hne
  have halias := apply_one_pair_aliases_has db cid ckey aid akey
  have h1 : insertAlias (apply_one_pair db cid ckey aid akey) cid akey =
      apply_one_pair db cid ckey aid akey := by
    unfold insertAlias
    rw [if_pos]
    obtain ⟨r, hr, hc1, hc2⟩ := halias
    exact List.any_eq_true.mpr ⟨r, hr, by simp [hc1, hc2]⟩
  have h2 : mergeConflicts (apply_one_pair db cid ckey aid akey) cid aid =
      apply_one_pair db cid ckey aid akey := by
    unfold mergeConflicts
    have hmap : ((apply_one_pair db cid ckey aid akey).ri.map fun c =>
        if c.ingredient_id = cid then
          match (apply_one_pair db cid ckey aid akey).ri.find? (fun a =>
              a.ingredient_id = aid && a.recipe_id = c.recipe_id) with
          | some a => mergeRow c a
          | none => c
        else c) = (apply_one_pair db cid ckey aid akey).ri := by
      rw [List.map_congr_left (g := id) ?_, List.map_id]
      intro c _
      have hfind : (apply_one_pair db cid ckey aid akey).ri.find? (fun a =>
          a.ingredient_id = aid && a.recipe_id = c.recipe_id) = none := by
        apply List.find?_eq_none.mpr
        intro a ha
        simp only [Bool.and_eq_true, decide_eq_true_eq, not_and]
        intro hcon
        exact absurd hcon (hnoaid a ha)
      by_cases h0 : c.ingredient_id = cid
      · rw [if_pos h0, hfind]
        rfl
      · rw [if_neg h0]
        rfl
    rw [hmap]
    have hfil : ((apply_one_pair db cid ckey aid akey).ri.filter fun a =>
        !(a.ingredient_id = aid &&
          (apply_one_pair db cid ckey aid akey).ri.any fun c =>
            c.ingredient_id = cid && c.recipe_id = a.recipe_id)) =
        (apply_one_pair db cid ckey aid akey).ri := by
      apply List.filter_eq_self.mpr
      intro a ha
      simp only [Bool.not_eq_true', Bool.and_eq_false_iff, decide_eq_false_iff_not]
      exact Or.inl (hnoaid a ha)
    rw [hfil]
  have h3 : updateNonConflict (apply_one_pair db cid ckey aid akey) cid aid =
      apply_one_pair db cid ckey aid akey := by
    unfold updateNonConflict
    have hmap : ((apply_one_pair db cid ckey aid akey).ri.map fun a =>
        if a.ingredient_id = aid &&
            !((apply_one_pair db cid ckey aid akey).ri.any fun c =>
              c.ingredient_id = cid && c.recipe_id = a.recipe_id) then
          { a with ingredient_id := cid }
        else a) = (apply_one_pair db cid ckey aid akey).ri := by
      rw [List.map_congr_left (g := id) ?_, List.map_id]
      intro a ha
      have hng : ¬((a.ingredient_id = aid &&
          !((apply_one_pair db cid ckey aid akey).ri.any fun c =>
            c.ingredient_id = cid && c.recipe_id = a.recipe_id)) = true) := by
        simp only [Bool.and_eq_true, decide_eq_true_eq, not_and]
        intro hcon _
        exact (hnoaid a ha) hcon
      rw [if_neg hng]
      rfl
    rw [hmap]
  show updateNonConflict (mergeConflicts
    (insertAlias (apply_one_pair db cid ckey aid akey) cid akey) cid aid) cid aid =
      apply_one_pair db cid ckey aid akey
  rw [h1, h2, h3]

/-- Witness for C2: a concrete store with one conflicting and one
non-conflicting join-row. -/
theorem C2_merge_executor_idempotent_witness :
    apply_one_pair (apply_one_pair
      ⟨[⟨"c", "bot ngot", "bot ngot"⟩],
       [⟨"r1", "c", none, none, some "tuoi".data, "core"⟩,
        ⟨"r1", "a", some 2, some "g", some "kho".data, "optional"⟩,
        ⟨"r2", "a", none, none, none, "core"⟩]⟩
      "c" "bot ngot" "a" "mi chinh") "c" "bot ngot" "a" "mi chinh" =
    apply_one_pair
      ⟨[⟨"c", "bot ngot", "bot ngot"⟩],
       [⟨"r1", "c", none, none, some "tuoi".data, "core"⟩,
        ⟨"r1", "a", some 2, some "g", some "kho".data, "optional"⟩,
        ⟨"r2", "a", none, none, none, "core"⟩]⟩
      "c" "bot ngot" "a" "mi chinh" :=
  C2_merge_executor_idempotent
    ⟨[⟨"c", "bot ngot", "bot ngot"⟩],
     [⟨"r1", "c", none, none, some "tuoi".data, "core"⟩,
      ⟨"r1", "a", some 2, some "g", some "kho".data, "optional"⟩,
      ⟨"r2", "a", none, none, none, "core"⟩]⟩
    "c" "bot ngot" "a" "mi chinh" (by decide)

/-! ### Claim C5: note merging in the merge executor -/

/-- C5 (counterexample): merging an alias join-row into a conflicting
canonical join-row when both notes are "tuoi" produces the note
"tuoi; tuoi" — the shared segment appears twice, so the merged note is
NOT de-duplicated (the parser-side `merge_note`, which does implement
order-preserving case-insensitive de-duplication, would give
"tuoi"). -/
theorem C5_counterexample :
    (apply_one_pair
      ⟨[], [⟨"r1", "c", none, none, some "tuoi".data, "core"⟩,
            ⟨"r1", "a", none, none, some "tuoi".data, "optional"⟩]⟩
      "c" "bot ngot" "a" "mi chinh").ri =
      [⟨"r1", "c", none, none, some "tuoi; tuoi".data, "core"⟩] ∧
    (splitSegs "tuoi; tuoi".data).count "tuoi".data = 2 ∧
    merge_note (some "tuoi".data) (some "tuoi".data) = some "tuoi".data := by
  refine ⟨?_, ?_, ?_⟩ <;> decide

/-- C5 (amended): when the merge executor merges an alias join-row into
a conflicting canonical join-row for the same recipe and both notes are
present, the resulting note is the plain concatenation
`canonical_note ++ "; " ++ alias_note` capped at 200 characters, with no
de-duplication of segments (duplicated segments are retained; only the
parser-side per-recipe merge, `merge_note`, de-duplicates). -/
theorem C5_amended (nc na : List Char) (h : nc.length + na.length + 2 ≤ 200) :
    (apply_one_pair
      ⟨[], [⟨"r1", "c", none, none, some nc, "core"⟩,
            ⟨"r1", "a", none, none, some na, "optional"⟩]⟩
      "c" "bot ngot" "a" "mi chinh").ri =
    [⟨"r1", "c", none, none, some (nc ++ "; ".data ++ na), "core"⟩] := by
  have hstep : (apply_one_pair
      ⟨[], [⟨"r1", "c", none, none, some nc, "core"⟩,
            ⟨"r1", "a", none, none, some na, "optional"⟩]⟩
      "c" "bot ngot" "a" "mi chinh").ri =
    [⟨"r1", "c", none, none, some ((nc ++ "; ".data ++ na).take 200), "core"⟩] := rfl
  have hlen : (nc ++ "; ".data ++ na).length ≤ 200 := by
    have h2 : ("; ".data).length = 2 := rfl
    simp only [List.length_append, h2]
    omega
  rw [hstep, List.take_of_length_le hlen]

/-- Witness for C5 (amended): distinct notes "tuoi" and "kho" merge to
"tuoi; kho". -/
theorem C5_amended_witness :
    (apply_one_pair
      ⟨[], [⟨"r1", "c", none, none, some "tuoi".data, "core"⟩,
            ⟨"r1", "a", none, none, some "kho".data, "optional"⟩]⟩
      "c" "bot ngot" "a" "mi chinh").ri =
    [⟨"r1", "c", none, none, some ("tuoi".data ++ "; ".data ++ "kho".data), "core"⟩] :=
  C5_amended "tuoi".data "kho".data (by decide)

/-! ### Collision resolver control flow (resolve_collisions.py lines
163-193).  The per-group body `apply_one_alias` is a store migration
whose details do not affect the retry/abort control flow this claim is
about; processing a group is recorded as its `(alias_norm,
canonical_id)` pair.  Whether the store raises a uniqueness-violation
race on a given attempt is external nondeterminism, modelled by the
group's `fails` oracle. -/

/-- One CSV row of the collision resolver together with the
environment's behavior: `fails a` holds when the per-group transaction
raises `UniqueViolation` on attempt `a`. -/
structure CollisionGroup where
  alias_norm : String
  canonical_id : String
  canonical_key : String
  decision : String
  fails : Nat → Bool

/-- Result of `run_apply`: the groups applied (in order), the count of
rows skipped as non-"auto", and the `alias_norm` of the group whose
retries were exhausted when the run aborted there. -/
structure ApplyOutcome where
  applied : List (String × String)
  skipped_manual : Nat
  aborted : Option String
deriving DecidableEq, Repr

/-- The first of the three attempts (`for attempt in range(3)` with
`break` on success) that does not raise, if any. -/
def firstOk (fails : Nat → Bool) : Option Nat :=
  if fails 0 = false then some 0
  else if fails 1 = false then some 1
  else if fails 2 = false then some 2
  else none

/-- `run_apply` (resolve_collisions.py lines 163-193): rows with an
empty alias_norm or canonical_id are skipped silently; non-"auto"
decisions are counted in `skipped_manual`; every remaining group runs
its transaction with up to 3 attempts; when all 3 raise, `raise`
re-throws (line 184) and the exception propagates out of `run_apply`,
so no later row is processed. -/
def run_apply : List CollisionGroup → ApplyOutcome
  | [] => ⟨[], 0, none⟩
  | r :: rs =>
    if r.alias_norm = "" ∨ r.canonical_id = "" then run_apply rs
    else if r.decision ≠ "auto" then
      { run_apply rs with skipped_manual := (run_apply rs).skipped_manual + 1 }
    else
      match firstOk r.fails with
      | some _ =>
        { run_apply rs with
          applied := (r.alias_norm, r.canonical_id) :: (run_apply rs).applied }
      | none => ⟨[], 0, some r.alias_norm⟩

lemma firstOk_none {fails : Nat → Bool} (h : ∀ a, a < 3 → fails a = true) :
    firstOk fails = none := by
  unfold firstOk
  rw [h 0 (by omega), h 1 (by omega), h 2 (by omega)]
  rfl

lemma firstOk_isSome {fails : Nat → Bool} (h : ∃ a, a < 3 ∧ fails a = false) :
    ∃ k, firstOk fails = some k := by
  unfold firstOk
  obtain ⟨a, ha, hf⟩ := h
  by_cases h0 : fails 0 = false
  · exact ⟨0, by rw [if_pos h0]⟩
  · rw [if_neg h0]
    by_cases h1 : fails 1 = false
    · exact ⟨1, by rw [if_pos h1]⟩
    · rw [if_neg h1]
      by_cases h2 : fails 2 = false
      · exact ⟨2, by rw [if_pos h2]⟩
      · exfalso
        interval_cases a
        · exact h0 hf
        · exact h1 hf
        · exact h2 hf

/-! ### Claim C4 -/

/-- C4 (counterexample): a batch of two auto-approved groups in which
the first group's transaction raises a uniqueness violation on all
three attempts: the error is re-raised and the second group is NOT
processed — the claim that ``every other group in the same batch is
still processed'' fails. -/
theorem C4_counterexample :
    run_apply
      [⟨"an1", "c1", "k1", "auto", fun _ => true⟩,
       ⟨"an2", "c2", "k2", "auto", fun _ => false⟩] =
      ⟨[], 0, some "an1"⟩ ∧
    ("an2", "c2") ∉ (run_apply
      [⟨"an1", "c1", "k1", "auto", fun _ => true⟩,
       ⟨"an2", "c2", "k2", "auto", fun _ => false⟩]).applied := by
  constructor
  · rfl
  · intro h
    simp only [run_apply, firstOk] at h
    simp at h

/-- C4 (amended): a uniqueness-constraint violation retries the whole
per-group transaction up to 3 attempts; a group that succeeds within
the bound is processed; but when a group exhausts all 3 attempts the
error propagates out of the batch loop: groups before it keep their
committed results, and every group after it is left unprocessed (the
original claim's ``other groups unaffected'' holds only for the groups
already processed). -/
theorem C4_amended :
    (∀ (pre post : List CollisionGroup) (r : CollisionGroup),
      (∀ x ∈ pre, x.alias_norm = "" ∨ x.canonical_id = "" ∨ x.decision ≠ "auto" ∨
        ∃ a, a < 3 ∧ x.fails a = false) →
      r.alias_norm ≠ "" → r.canonical_id ≠ "" → r.decision = "auto" →
      (∀ a, a < 3 → r.fails a = true) →
      (run_apply (pre ++ r :: post)).aborted = some r.alias_norm ∧
      (run_apply (pre ++ r :: post)).applied = (run_apply pre).applied) ∧
    (∀ (r : CollisionGroup) (rs : List CollisionGroup),
      r.alias_norm ≠ "" → r.canonical_id ≠ "" → r.decision = "auto" →
      (∃ a, a < 3 ∧ r.fails a = false) →
      (run_apply (r :: rs)).applied =
        (r.alias_norm, r.canonical_id) :: (run_apply rs).applied) := by
  constructor
  · intro pre post r hpre han hcid hdec hfails
    induction pre with
    | nil =>
      have hguard : ¬(r.alias_norm = "" ∨ r.canonical_id = "") := by
        intro hcon; rcases hcon with hcon | hcon
        · exact han hcon
        · exact hcid hcon
      have habort : run_apply ([] ++ r :: post) = ⟨[], 0, some r.alias_norm⟩ := by
        show run_apply (r :: post) = _
        rw [run_apply, if_neg hguard, if_neg (by simp [hdec]), firstOk_none hfails]
      rw [habort]
      exact ⟨rfl, rfl⟩
    | cons x pre ih =>
      have hx := hpre x (List.mem_cons_self _ _)
      have ihx := ih fun y hy => hpre y (List.mem_cons_of_mem _ hy)
      show (run_apply (x :: (pre ++ r :: post))).aborted = some r.alias_norm ∧
        (run_apply (x :: (pre ++ r :: post))).applied = (run_apply (x :: pre)).applied
      by_cases hg1 : x.alias_norm = "" ∨ x.canonical_id = ""
      · rw [run_apply, if_pos hg1]
        conv_rhs => rw [run_apply, if_pos hg1]
        exact ihx
      · by_cases hg2 : x.decision ≠ "auto"
        · rw [run_apply, if_neg hg1, if_pos hg2]
          conv_rhs => rw [run_apply, if_neg hg1, if_pos hg2]
          exact ihx
        · rcases hx with hx | hx | hx | hx
          · exact absurd (Or.inl hx) hg1
          · exact absurd (Or.inr hx) hg1
          · exact absurd hx hg2
          · obtain ⟨k, hk⟩ := firstOk_isSome hx
            rw [run_apply, if_neg hg1, if_neg hg2, hk]
            conv_rhs => rw [run_apply, if_neg hg1, if_neg hg2, hk]
            exact ⟨ihx.1, by simp [ihx.2]⟩
  · intro r rs han hcid hdec hsucc
    have hguard : ¬(r.alias_norm = "" ∨ r.canonical_id = "") := by
      intro hcon; rcases hcon with hcon | hcon
      · exact han hcon
      · exact hcid hcon
    obtain ⟨k, hk⟩ := firstOk_isSome hsucc
    rw [run_apply, if_neg hguard, if_neg (by simp [hdec]), hk]

/-- Witness for C4 (amended): both parts at concrete batches — an
exhausted group aborting the remainder, and a group succeeding on its
last allowed attempt. -/
theorem C4_amended_witness :
    ((run_apply
        [⟨"g0", "c0", "k0", "auto", fun _ => false⟩,
         ⟨"an1", "c1", "k1", "auto", fun _ => true⟩,
         ⟨"an2", "c2", "k2", "auto", fun _ => false⟩]).aborted = some "an1" ∧
     (run_apply
        [⟨"g0", "c0", "k0", "auto", fun _ => false⟩,
         ⟨"an1", "c1", "k1", "auto", fun _ => true⟩,
         ⟨"an2", "c2", "k2", "auto", fun _ => false⟩]).applied =
       (run_apply [⟨"g0", "c0", "k0", "auto", fun _ => false⟩]).applied) ∧
    (run_apply [⟨"g3", "c3", "k3", "auto", fun a => a < 2⟩]).applied =
      ("g3", "c3") :: (run_apply ([] : List CollisionGroup)).applied :=
  ⟨C4_amended.1 [⟨"g0", "c0", "k0", "auto", fun _ => false⟩]
      [⟨"an2", "c2", "k2", "auto", fun _ => false⟩]
      ⟨"an1", "c1", "k1", "auto", fun _ => true⟩
      (by intro x hx; right; right; right; exact ⟨0, by omega, by
        simp only [List.mem_singleton.mp hx]⟩)
      (by decide) (by decide) rfl (fun a _ => rfl),
   C4_amended.2 ⟨"g3", "c3", "k3", "auto", fun a => a < 2⟩ [] (by decide)
      (by decide) rfl ⟨2, by omega, by decide⟩⟩

/-! ### Amount parsing (pipeline.py lines 26-107) -/

/-- `UNIT_MAP` (pipeline.py lines 26-37). -/
def UNIT_MAP : List (String × String) :=
  [("g", "g"), ("gram", "g"), ("gam", "g"), ("kg", "kg"), ("ml", "ml"),
   ("l", "l"), ("lit", "l"), ("lít", "l"), ("tbsp", "tbsp"), ("tsp", "tsp"),
   ("thìa", "thìa"), ("muỗng", "muỗng"), ("củ", "củ"), ("quả", "quả"),
   ("lá", "lá"), ("nhánh", "nhánh"), ("tép", "tép"), ("miếng", "miếng"),
   ("khoanh", "khoanh"), ("gói", "gói"), ("hộp", "hộp"), ("chai", "chai"),
   ("lon", "lon"), ("bát", "bát"), ("chén", "chén")]

/-- `normalize_unit` (pipeline.py lines 79-82). -/
def normalize_unit (u : List Char) : Option String :=
  if u.isEmpty then none
  else
    some (match UNIT_MAP.find? (fun p => p.1.data = (stripWs u).map lowerChar) with
          | some p => p.2
          | none => ⟨(stripWs u).map lowerChar⟩)

/-- The alternatives of `UNIT_PATTERN` (pipeline.py line 38), in the
pattern's order; regex alternation takes the first alternative whose
match is followed by a `\b` boundary. -/
def unitAlts : List String :=
  ["kg", "g", "gram", "gam", "ml", "l", "lít", "lit", "tbsp", "tsp",
   "thìa", "muỗng", "củ", "quả", "lá", "nhánh", "tép", "miếng", "khoanh",
   "gói", "hộp", "chai", "lon", "bát", "chén"]

/-- Case-insensitive literal match (the `re.IGNORECASE` flag; patterns
are lowercase, input is folded by `lowerChar`): the rest of the input on
success. -/
def matchLit : List Char → List Char → Option (List Char)
  | [], s => some s
  | _ :: _, [] => none
  | p :: ps, c :: cs => if lowerChar c = p then matchLit ps cs else none

/-- `\b` after a word-character match: the remainder must not start with
a word character. -/
def boundaryOk : List Char → Bool
  | [] => true
  | c :: _ => !isWordChar c

/-- First unit alternative that matches and satisfies the `\b`
boundary. -/
def findUnit : List String → List Char → Option (String × List Char)
  | [], _ => none
  | u :: us, s =>
    match matchLit u.data s with
    | some rest => if boundaryOk rest then some (u, rest) else findUnit us s
    | none => findUnit us s

/-- Value of a digit string (`Decimal` of a `\d+` match). -/
def digitsVal (ds : List Char) : Nat :=
  ds.foldl (fun acc c => 10 * acc + (c.toNat - 48)) 0

/-- `RE_FRACTION_UNIT` (pipeline.py line 44):
`^(\d+)\s*/\s*(\d+)\s*(unit)\b\s*(rest)$`, returning numerator,
denominator, matched unit and the rest group. -/
def matchFractionUnit (s : List Char) : Option (Nat × Nat × String × List Char) :=
  if (s.takeWhile isDig).isEmpty then none
  else
    match (s.dropWhile isDig).dropWhile isWs with
    | '/' :: r3 =>
      if ((r3.dropWhile isWs).takeWhile isDig).isEmpty then none
      else
        match findUnit unitAlts
            (((r3.dropWhile isWs).dropWhile isDig).dropWhile isWs) with
        | some (u, r6) =>
          some (digitsVal (s.takeWhile isDig),
            digitsVal ((r3.dropWhile isWs).takeWhile isDig), u, r6.dropWhile isWs)
        | none => none
    | _ => none

/-- `RE_DECIMAL_UNIT` (pipeline.py line 45):
`^(\d+(?:[.,]\d+)?)\s*(unit)\b\s*(rest)$`, with the regex's greedy
optional fraction part and its backtracking to the integer-only
alternative when the tail fails. `decTail` is the shared
whitespace-unit-rest tail, given the matched value text. -/
def decTail (val rest : List Char) : Option (List Char × String × List Char) :=
  match findUnit unitAlts (rest.dropWhile isWs) with
  | some (u, r6) => some (val, u, r6.dropWhile isWs)
  | none => none

def matchDecimalUnit (s : List Char) : Option (List Char × String × List Char) :=
  if (s.takeWhile isDig).isEmpty then none
  else
    match s.dropWhile isDig with
    | c :: r2 =>
      if (c = '.' ∨ c = ',') ∧ !(r2.takeWhile isDig).isEmpty then
        match decTail (s.takeWhile isDig ++ c :: r2.takeWhile isDig)
            (r2.dropWhile isDig) with
        | some out => some out
        | none => decTail (s.takeWhile isDig) (s.dropWhile isDig)
      else decTail (s.takeWhile isDig) (s.dropWhile isDig)
    | [] => decTail (s.takeWhile isDig) (s.dropWhile isDig)

/-- `parse_decimal` (pipeline.py lines 73-77): `Decimal` of the value
with ',' replaced by '.', restricted to the shapes the regexes can
produce (digits, optionally a separator and digits); exact. -/
def parse_decimal (v : List Char) : Option ℚ :=
  if ((v.map fun c => if c = ',' then '.' else c).takeWhile isDig).isEmpty then none
  else
    match (v.map fun c => if c = ',' then '.' else c).dropWhile isDig with
    | [] =>
      some (mkRat (digitsVal
        ((v.map fun c => if c = ',' then '.' else c).takeWhile isDig)) 1)
    | '.' :: d2 =>
      if !d2.isEmpty && d2.all isDig then
        some (mkRat (digitsVal
            ((v.map fun c => if c = ',' then '.' else c).takeWhile isDig) *
            10 ^ d2.length + digitsVal d2) (10 ^ d2.length))
      else none
    | _ => none

/-! #### `Decimal` division (default context: precision 28,
ROUND_HALF_EVEN), for the integer operands produced by
`RE_FRACTION_UNIT`.  `Decimal` division is NOT exact in general: the
quotient is rounded to 28 significant digits. -/

/-- Smallest `u` with `t ≤ a * 10 ^ u` (fuel-bounded; the fuel passed is
always ample). -/
def scaleUpF : Nat → Nat → Nat → Nat
  | 0, _, _ => 0
  | fuel + 1, a, t => if t ≤ a then 0 else scaleUpF fuel (a * 10) t + 1

/-- Number of decimal digits (fuel-bounded). -/
def digits10F : Nat → Nat → Nat
  | 0, _ => 1
  | fuel + 1, n => if n < 10 then 1 else digits10F fuel (n / 10) + 1

/-- Number of decimal digits of `n`. -/
def digits10 (n : Nat) : Nat := digits10F n n

/-- The value of `Decimal(a) / Decimal(b)` (`b ≠ 0`): scale `a` so the
integer quotient has 28 significant digits, divide, and round the
remainder half-to-even; when the scaled division is exact this is
exactly `a / b`. -/
def decDiv28 (a b : Nat) : ℚ :=
  if a = 0 then 0
  else
    let u := scaleUpF (b * 10 ^ 27 + 1) a (b * 10 ^ 27)
    let A := a * 10 ^ u
    if digits10 (A / b) ≤ 28 then
      mkRat (A / b + (if b < 2 * (A % b) ∨ (2 * (A % b) = b ∧ (A / b) % 2 = 1)
        then 1 else 0)) (10 ^ u)
    else
      mkRat ((A / (b * 10 ^ (digits10 (A / b) - 28)) +
          (if b * 10 ^ (digits10 (A / b) - 28) < 2 * (A % (b * 10 ^ (digits10 (A / b) - 28))) ∨
              (2 * (A % (b * 10 ^ (digits10 (A / b) - 28))) = b * 10 ^ (digits10 (A / b) - 28) ∧
                (A / (b * 10 ^ (digits10 (A / b) - 28))) % 2 = 1)
            then 1 else 0)) * 10 ^ (digits10 (A / b) - 28)) (10 ^ u)

/-- `parse_amount_unit_minimal` (pipeline.py lines 90-107): strip, try
the fraction pattern (amount `num / den` by `Decimal` division, `None`
when `den = 0`), then the decimal pattern, else no amount and the
stripped text as rest. -/
def parse_amount_unit_minimal (s : List Char) :
    Option ℚ × Option String × List Char :=
  match matchFractionUnit (stripWs s) with
  | some (num, den, u, rest) =>
    ((if den = 0 then none else some (decDiv28 num den)),
      normalize_unit u.data, normalize_spacesL rest)
  | none =>
    match matchDecimalUnit (stripWs s) with
    | some (val, u, rest) =>
      (parse_decimal val, normalize_unit u.data, normalize_spacesL rest)
    | none => (none, none, stripWs s)

/-! ### Note phrases and suffix modifiers (pipeline.py lines 47-48) -/

/-- The alternatives of `RE_NOTE_PHRASES`, in pattern order; each is a
sequence of literal words joined by `\s*` in the pattern. -/
def NOTE_PHRASES : List (List (List Char)) :=
  [["vừa".data, "đủ".data], ["tùy".data, "thích".data],
   ["tuỳ".data, "thích".data], ["tùy".data], ["tuỳ".data], ["ít".data],
   ["một".data, "ít".data], ["nếu".data, "thích".data],
   ["không".data, "bắt".data, "buộc".data], ["có".data, "thể".data]]

/-- The alternatives of `RE_SUFFIX_MOD`'s `mod` group, in pattern
order. -/
def SUFFIX_MODS : List (List (List Char)) :=
  [["nhỏ".data], ["to".data], ["vừa".data], ["lớn".data], ["tươi".data],
   ["khô".data], ["băm".data, "nhỏ".data], ["băm".data],
   ["thái".data, "nhỏ".data], ["thái".data], ["xắt".data],
   ["cắt".data, "lát".data], ["cắt".data, "nhỏ".data], ["cắt".data],
   ["xay".data], ["giã".data], ["đập".data, "dập".data],
   ["rửa".data, "sạch".data], ["gọt".data, "vỏ".data],
   ["bỏ".data, "vỏ".data], ["bỏ".data, "hạt".data]]

/-- Case-insensitive literal match returning the consumed original text
and the rest. -/
def matchLitCI : List Char → List Char → Option (List Char × List Char)
  | [], s => some ([], s)
  | _ :: _, [] => none
  | p :: ps, c :: cs =>
    if lowerChar c = p then
      match matchLitCI ps cs with
      | some (c1, r) => some (c :: c1, r)
      | none => none
    else none

/-- Match a sequence of literal words joined by `\s*`, returning the
consumed original text (with its actual whitespace) and the rest. -/
def matchSegsCI : List (List Char) → List Char → Option (List Char × List Char)
  | [], s => some ([], s)
  | seg :: segs, s =>
    match matchLitCI seg s with
    | none => none
    | some (c1, r1) =>
      match segs with
      | [] => some (c1, r1)
      | _ :: _ =>
        match matchSegsCI segs (r1.dropWhile isWs) with
        | none => none
        | some (c2, r2) => some (c1 ++ r1.takeWhile isWs ++ c2, r2)

/-- First phrase alternative that matches here and is followed by a
`\b` boundary (regex alternation with backtracking). -/
def tryPhrases : List (List (List Char)) → List Char → Option (List Char × List Char)
  | [], _ => none
  | ph :: phs, s =>
    match matchSegsCI ph s with
    | some (consumed, rest) =>
      if boundaryOk rest then some (consumed, rest) else tryPhrases phs s
    | none => tryPhrases phs s

/-- Scanner for `RE_NOTE_PHRASES.findall` / `.sub("", ·)`: collect the
non-overlapping matches (which must start at a `\b` boundary, tracked by
`prev`) and the text with the matches removed. -/
def notePhraseScanF : Nat → Bool → List Char → (List (List Char) × List Char)
  | 0, _, s => ([], s)
  | _ + 1, _, [] => ([], [])
  | fuel + 1, prev, c :: cs =>
    if prev then
      let r := notePhraseScanF fuel (isWordChar c) cs
      (r.1, c :: r.2)
    else
      match tryPhrases NOTE_PHRASES (c :: cs) with
      | some (consumed, rest) =>
        let r := notePhraseScanF fuel true rest
        (consumed :: r.1, r.2)
      | none =>
        let r := notePhraseScanF fuel (isWordChar c) cs
        (r.1, c :: r.2)

/-- `RE_NOTE_PHRASES.findall s` paired with `RE_NOTE_PHRASES.sub("", s)`
(pipeline.py line 47; the capture group is the whole phrase). -/
def notePhraseScan (s : List Char) : List (List Char) × List Char :=
  notePhraseScanF s.length false s

/-- First suffix-mod alternative that matches the whole remaining text
(the pattern requires `$` right after the `mod` group). -/
def trySuffixAlts : List (List (List Char)) → List Char → Option (List Char)
  | [], _ => none
  | alt :: alts, s =>
    match matchSegsCI alt s with
    | some (consumed, rest) =>
      if rest.isEmpty then some consumed else trySuffixAlts alts s
    | none => trySuffixAlts alts s

/-- `RE_SUFFIX_MOD` at split position `i`:
`^(name)(?:\s+(mod))$` with `name = s.take i`. -/
def suffixModAt (s : List Char) (i : Nat) : Option (List Char × List Char) :=
  if (List.takeWhile isWs (s.drop i)).isEmpty then none
  else
    match trySuffixAlts SUFFIX_MODS ((s.drop i).dropWhile isWs) with
    | some consumed => some (s.take i, consumed)
    | none => none

/-- `RE_SUFFIX_MOD.match s` (pipeline.py line 48): the lazy `.*?` name
group makes the match use the earliest split position that works. -/
def suffixModSplit (s : List Char) : Option (List Char × List Char) :=
  (List.range (s.length + 1)).findSome? (fun i => suffixModAt s i)

/-- Python `str.strip(chars)` for the fixed set `" .:-–—"` used at
pipeline.py line 131. -/
def stripPunct (l : List Char) : List Char :=
  (l.dropWhile (fun c => [' ', '.', ':', '-', '–', '—'].contains c)).rdropWhile
    (fun c => [' ', '.', ':', '-', '–', '—'].contains c)

/-- `extract_key_and_note` (pipeline.py lines 109-134): pull hedge
phrases out of the text into the note parts, strip one trailing
preparation modifier into the note parts, trim punctuation, lowercase
the remainder into the key, and join the note parts with "; ". -/
def extract_key_and_note (rest : List Char) (note0 : Option (List Char)) :
    List Char × Option (List Char) :=
  let s := normalize_spacesL rest
  let parts0 : List (List Char) := match note0 with | some n => [n] | none => []
  let phrases := (notePhraseScan s).1
  let parts1 :=
    if phrases.isEmpty then parts0
    else phrases.foldl (fun acc ph =>
      if !(normalize_spacesL ph).isEmpty && !acc.contains (normalize_spacesL ph) then
        acc ++ [normalize_spacesL ph]
      else acc) parts0
  let s1 := if phrases.isEmpty then s else normalize_spacesL (notePhraseScan s).2
  let s2 := match suffixModSplit s1 with
    | some nm => normalize_spacesL nm.1
    | none => s1
  let parts2 := match suffixModSplit s1 with
    | some nm =>
      if (normalize_spacesL nm.2).isEmpty then parts1
      else parts1 ++ [normalize_spacesL nm.2]
    | none => parts1
  let key := (normalize_spacesL (stripPunct s2)).map lowerChar
  (key, if parts2.isEmpty then none
    else some (joinSegs (parts2.filter (fun p => !p.isEmpty))))

/-- `RE_NOTE_PHRASES.search` (pipeline.py lines 139/141): some match
exists. -/
def hasNotePhrase (s : List Char) : Bool := !(notePhraseScan s).1.isEmpty

/-- `infer_role` (pipeline.py lines 136-143). -/
def infer_role (raw : List Char) (note : Option (List Char)) (is_combo : Bool) :
    String :=
  if is_combo then "optional"
  else if hasNotePhrase (raw.map lowerChar) then "optional"
  else match note with
    | some n => if hasNotePhrase (n.map lowerChar) then "optional" else "core"
    | none => "core"

/-! ### Pre-cleaning and combo split (pipeline.py lines 40-42, 63-88) -/

/-- The character class of `RE_BULLET` (`^[\s\-\•\*\+\·]+`). -/
def isBullet (c : Char) : Bool :=
  isWs c || c = '-' || c = '•' || c = '*' || c = '+' || c = '·'

/-- Scanner for `RE_PARENS` (`\(([^)]{1,200})\)`) `findall` and `sub`:
a '(' whose contents (up to the next ')') have length 1..200 is a
match; otherwise the scan advances one character. -/
def parenScanF : Nat → List Char → (List (List Char) × List Char)
  | 0, s => ([], s)
  | _ + 1, [] => ([], [])
  | fuel + 1, c :: cs =>
    if c = '(' then
      match cs.dropWhile (fun d => !(d = ')')) with
      | ')' :: rest =>
        if 1 ≤ (cs.takeWhile (fun d => !(d = ')'))).length ∧
            (cs.takeWhile (fun d => !(d = ')'))).length ≤ 200 then
          let r := parenScanF fuel rest
          ((cs.takeWhile (fun d => !(d = ')'))) :: r.1, r.2)
        else
          let r := parenScanF fuel cs
          (r.1, c :: r.2)
      | _ =>
        let r := parenScanF fuel cs
        (r.1, c :: r.2)
    else
      let r := parenScanF fuel cs
      (r.1, c :: r.2)

/-- `RE_PARENS.findall` paired with `RE_PARENS.sub("", ·)`. -/
def parenScan (s : List Char) : List (List Char) × List Char :=
  parenScanF s.length s

/-- `preclean_extract_parentheses` (pipeline.py lines 63-71). -/
def preclean_extract_parentheses (raw : List Char) :
    List Char × Option (List Char) :=
  let s0 := normalize_spacesL ((stripWs raw).dropWhile isBullet)
  let s1 := s0.map (fun c => if c = ';' then ',' else c)
  let notes := (parenScan s1).1
  if notes.isEmpty then (s1, none)
  else
    let note := joinSegs
      ((notes.filter (fun n => !(stripWs n).isEmpty)).map normalize_spacesL)
    (normalize_spacesL (parenScan s1).2, if note.isEmpty then none else some note)

/-- Split at every comma, keeping empty pieces. -/
def splitOnCommaAux : List Char → List Char → List (List Char)
  | cur, [] => [cur.reverse]
  | cur, c :: cs =>
    if c = ',' then cur.reverse :: splitOnCommaAux [] cs
    else splitOnCommaAux (c :: cur) cs

/-- `split_combo` (pipeline.py lines 84-88). -/
def split_combo (text_main : List Char) : List (List Char) :=
  if !text_main.contains ',' then [text_main]
  else ((splitOnCommaAux [] text_main).map normalize_spacesL).filter
    (fun p => !p.isEmpty)

/-! ### `parse_ingredient_text_phase1` (pipeline.py lines 145-173) -/

/-- `ParsedIngredient` (pipeline.py lines 145-152). -/
structure ParsedIngredient where
  amount : Option ℚ
  unit : Option String
  key : List Char
  alias_norm : List Char
  note : Option (List Char)
  role : String
deriving DecidableEq, Repr

/-- The loop body for one combo part (pipeline.py lines 160-172): skip
empty parts, parse the amount/unit, extract key and note, drop the item
when the key is empty or contains a digit, else build the item. -/
def processPart (raw_text : List Char) (note0 : Option (List Char))
    (is_combo : Bool) (part : List Char) : Option ParsedIngredient :=
  if part.isEmpty then none
  else if (extract_key_and_note (parse_amount_unit_minimal part).2.2 note0).1.isEmpty then
    none
  else if (extract_key_and_note (parse_amount_unit_minimal part).2.2 note0).1.any isDig then
    none
  else
    some ⟨(parse_amount_unit_minimal part).1,
      (parse_amount_unit_minimal part).2.1,
      (extract_key_and_note (parse_amount_unit_minimal part).2.2 note0).1,
      normalize_alias_normL
        (extract_key_and_note (parse_amount_unit_minimal part).2.2 note0).1,
      (extract_key_and_note (parse_amount_unit_minimal part).2.2 note0).2,
      infer_role raw_text
        (extract_key_and_note (parse_amount_unit_minimal part).2.2 note0).2 is_combo⟩

/-- `parse_ingredient_text_phase1` (pipeline.py lines 154-173). -/
def parse_ingredient_text_phase1 (raw_text : List Char) : List ParsedIngredient :=
  (split_combo (preclean_extract_parentheses raw_text).1).filterMap
    (processPart raw_text (preclean_extract_parentheses raw_text).2
      (1 < (split_combo (preclean_extract_parentheses raw_text).1).length))

set_option maxHeartbeats 1000000 in
/-- C7: for every raw input, every item returned by
`parse_ingredient_text_phase1` has a non-empty key that contains no digit
character (pipeline.py lines 164-166 drop a part whose candidate key is
empty or contains a digit). -/
theorem C7_parser_key_invariant (raw : List Char) (pi : ParsedIngredient)
    (h : pi ∈ parse_ingredient_text_phase1 raw) :
    pi.key ≠ [] ∧ ∀ c ∈ pi.key, isDig c = false := by
  obtain ⟨pa, pu, pk, pan, pno, pro⟩ := pi
  show pk ≠ [] ∧ ∀ c ∈ pk, isDig c = false
  obtain ⟨part, -, hp⟩ := List.mem_filterMap.mp h
  rw [processPart] at hp
  by_cases h1 : part.isEmpty = true
  · rw [if_pos h1] at hp; exact absurd hp (by simp)
  · rw [if_neg h1] at hp
    by_cases h2 : (extract_key_and_note (parse_amount_unit_minimal part).2.2
        (preclean_extract_parentheses raw).2).1.isEmpty = true
    · rw [if_pos h2] at hp; exact absurd hp (by simp)
    · rw [if_neg h2] at hp
      by_cases h3 : ((extract_key_and_note (parse_amount_unit_minimal part).2.2
          (preclean_extract_parentheses raw).2).1.any isDig) = true
      · rw [if_pos h3] at hp; exact absurd hp (by simp)
      · rw [if_neg h3] at hp
        rw [Option.some.injEq, ParsedIngredient.mk.injEq] at hp
        obtain ⟨-, -, hk, -, -, -⟩ := hp
        have h3f : ((extract_key_and_note (parse_amount_unit_minimal part).2.2
            (preclean_extract_parentheses raw).2).1.any isDig) = false := by
          simpa using h3
        constructor
        · rw [← hk]
          exact fun he => h2 (List.isEmpty_eq_true.mpr he)
        · intro c hc
          rw [← hk] at hc
          simpa using List.any_eq_false.mp h3f c hc

set_option maxRecDepth 10000 in
/-- Witness for C7 at the concrete input "rau". -/
theorem C7_parser_key_invariant_witness :
    (⟨none, none, "rau".data, "rau".data, none, "core"⟩ : ParsedIngredient).key ≠ []
      ∧ ∀ c ∈ (⟨none, none, "rau".data, "rau".data, none,
          "core"⟩ : ParsedIngredient).key, isDig c = false :=
  C7_parser_key_invariant "rau".data _ (by decide)

/-! ### Lemmas for the amount parser (C8) -/

lemma isDig_isWs {c : Char} (h : isDig c = true) : isWs c = false := by
  simp only [isDig, Bool.and_eq_true, decide_eq_true_eq] at h
  simp only [isWs, Bool.or_eq_false_iff, decide_eq_false_iff_not]
  omega

lemma map_dot_of_digits {l : List Char} (h : l.all isDig = true) :
    (l.map fun c => if c = ',' then '.' else c) = l :=
  map_id_of fun c hc => by
    have hd := List.all_eq_true.mp h c hc
    by_cases hcc : c = ','
    · rw [hcc] at hd; exact absurd hd (by decide)
    · simp [hcc]

lemma takeWhile_append_stop {p : Char → Bool} :
    ∀ (l r : List Char), l.all p = true →
      (∀ c, r.head? = some c → p c = false) →
      (l ++ r).takeWhile p = l ∧ (l ++ r).dropWhile p = r
  | [], r, _, hr => by
    cases r with
    | nil => exact ⟨rfl, rfl⟩
    | cons c cs =>
      rw [List.nil_append]
      exact ⟨List.takeWhile_cons_of_neg (by simp [hr c rfl]),
        List.dropWhile_cons_of_neg (by simp [hr c rfl])⟩
  | c :: cs, r, hl, hr => by
    have hc : p c = true := List.all_eq_true.mp hl c (List.mem_cons_self _ _)
    have hcs : cs.all p = true := List.all_eq_true.mpr fun x hx =>
      List.all_eq_true.mp hl x (List.mem_cons_of_mem _ hx)
    have ih := takeWhile_append_stop cs r hcs hr
    rw [List.cons_append, List.takeWhile_cons_of_pos hc,
      List.dropWhile_cons_of_pos hc, ih.1]
    exact ⟨rfl, ih.2⟩

lemma dropWhile_eq_self_of_head {p : Char → Bool} {l : List Char}
    (h : ∀ c, l.head? = some c → p c = false) : l.dropWhile p = l := by
  cases l with
  | nil => rfl
  | cons c cs => exact List.dropWhile_cons_of_neg (by simp [h c rfl])

lemma head_any_cons {l : List Char} {q : Char → Bool}
    (h : l.head?.any q = true) : ∃ c cs, l = c :: cs ∧ q c = true := by
  cases l with
  | nil => exact absurd h (by simp [Option.any])
  | cons c cs => exact ⟨c, cs, rfl, by simpa [Option.any] using h⟩

/-- Every unit alternative starts with a character that is not a digit,
not whitespace, and not the fraction slash. -/
lemma unitAlts_head_ok : ∀ u ∈ unitAlts,
    (u.data.head?.any fun c => !isDig c && !isWs c && !(c == '/')) = true := by
  decide

/-- Each unit alternative, followed by a space, is found by the
ordered alternation of `UNIT_PATTERN` exactly as itself (earlier
alternatives either fail or fail the boundary check). -/
lemma findUnit_self : ∀ u ∈ unitAlts, ∀ rest : List Char,
    findUnit unitAlts (u.data ++ ' ' :: rest) = some (u, ' ' :: rest) := by
  intro u hu rest
  fin_cases hu <;> rfl

/-- `strip` is the identity on inputs that start with a digit and end
with the non-whitespace-ending rest group. -/
lemma stripWs_shape {d1 rest : List Char} (mid : List Char)
    (hd1 : d1 ≠ []) (hall : d1.all isDig = true) (hrne : rest ≠ [])
    (hrl : ∀ c, rest.getLast? = some c → isWs c = false) :
    stripWs (d1 ++ mid ++ ' ' :: rest) = d1 ++ mid ++ ' ' :: rest := by
  apply stripWs_eq_self
  · intro c hc
    cases d1 with
    | nil => exact absurd rfl hd1
    | cons a as =>
      rw [List.cons_append, List.cons_append, List.head?_cons,
        Option.some_inj] at hc
      rw [← hc]
      exact isDig_isWs (List.all_eq_true.mp hall _ (List.mem_cons_self _ _))
  · intro c hc
    cases rest with
    | nil => exact absurd rfl hrne
    | cons r rs =>
      rw [List.getLast?_append, List.getLast?_append, List.getLast?_cons_cons,
        List.getLast?_eq_getLast (r :: rs) (List.cons_ne_nil r rs),
        Option.or_some] at hc
      exact hrl c
        ((List.getLast?_eq_getLast (r :: rs) (List.cons_ne_nil r rs)).trans hc)

lemma rest_facts {rest : List Char} (h : normalize_spacesL rest = rest) :
    (∀ c, rest.head? = some c → isWs c = false) ∧
      (∀ c, rest.getLast? = some c → isWs c = false) ∧
      rest.dropWhile isWs = rest := by
  have hh : ∀ c, rest.head? = some c → isWs c = false := by
    intro c hc
    rw [← h] at hc
    exact head?_stripWs_not hc
  have hl : ∀ c, rest.getLast? = some c → isWs c = false := by
    intro c hc
    rw [← h] at hc
    exact getLast?_stripWs_not hc
  exact ⟨hh, hl, dropWhile_eq_self_of_head hh⟩

lemma unit_head_facts {u : String} (hu : u ∈ unitAlts) :
    ∃ c cs, u.data = c :: cs ∧ isDig c = false ∧ isWs c = false ∧ c ≠ '/' := by
  obtain ⟨c, cs, hud, hq⟩ := head_any_cons (unitAlts_head_ok u hu)
  simp only [Bool.and_eq_true, Bool.not_eq_true'] at hq
  exact ⟨c, cs, hud, hq.1.1, hq.1.2, beq_eq_false_iff_ne.mp hq.2⟩

lemma digits_head_not_ws {l r : List Char} (hne : l ≠ [])
    (hall : l.all isDig = true) :
    ∀ c, (l ++ r).head? = some c → isWs c = false := by
  cases l with
  | nil => exact absurd rfl hne
  | cons a as =>
    intro c hc
    rw [List.cons_append, List.head?_cons, Option.some_inj] at hc
    rw [← hc]
    exact isDig_isWs (List.all_eq_true.mp hall _ (List.mem_cons_self _ _))

lemma parse_decimal_int {d1 : List Char} (hd1 : d1 ≠ [])
    (hall : d1.all isDig = true) :
    parse_decimal d1 = some (mkRat (digitsVal d1) 1) := by
  have hmap : (d1.map fun c => if c = ',' then '.' else c) = d1 :=
    map_dot_of_digits hall
  have htd := takeWhile_append_stop d1 [] hall (by intro c hc; simp at hc)
  rw [List.append_nil] at htd
  have hne : ¬(d1.isEmpty = true) := fun hE => hd1 (List.isEmpty_eq_true.mp hE)
  rw [parse_decimal, hmap, htd.1, htd.2, if_neg hne]

lemma parse_decimal_dec {d1 d2 : List Char} {sep : Char} (hd1 : d1 ≠ [])
    (h1 : d1.all isDig = true) (hd2 : d2 ≠ []) (h2 : d2.all isDig = true)
    (hsep : sep = '.' ∨ sep = ',') :
    parse_decimal (d1 ++ sep :: d2) =
      some (mkRat (digitsVal d1 * 10 ^ d2.length + digitsVal d2)
        (10 ^ d2.length)) := by
  have hmap : ((d1 ++ sep :: d2).map fun c => if c = ',' then '.' else c) =
      d1 ++ '.' :: d2 := by
    rw [List.map_append, map_dot_of_digits h1, List.map_cons,
      map_dot_of_digits h2]
    rcases hsep with rfl | rfl <;> simp
  have hhd : ∀ c, ('.' :: d2).head? = some c → isDig c = false := by
    intro c hc
    rw [List.head?_cons, Option.some_inj] at hc
    rw [← hc]; decide
  have htd := takeWhile_append_stop d1 ('.' :: d2) h1 hhd
  have hne : ¬(d1.isEmpty = true) := fun hE => hd1 (List.isEmpty_eq_true.mp hE)
  have hcond : (!d2.isEmpty && d2.all isDig) = true := by
    cases d2 with
    | nil => exact absurd rfl hd2
    | cons x xs => simp [h2]
  rw [parse_decimal, hmap, htd.1, htd.2, if_neg hne]
  show (if (!d2.isEmpty && d2.all isDig) = true then
      some (mkRat (digitsVal d1 * 10 ^ d2.length + digitsVal d2)
        (10 ^ d2.length))
    else none) =
    some (mkRat (digitsVal d1 * 10 ^ d2.length + digitsVal d2)
      (10 ^ d2.length))
  rw [if_pos hcond]

lemma decTail_eq {u : String} (hu : u ∈ unitAlts) (val rest : List Char)
    (hrdw : rest.dropWhile isWs = rest) :
    decTail val (' ' :: (u.data ++ ' ' :: rest)) = some (val, u, rest) := by
  obtain ⟨c0, cs0, hud, -, hws, -⟩ := unit_head_facts hu
  have huself : (u.data ++ ' ' :: rest).dropWhile isWs =
      u.data ++ ' ' :: rest := by
    apply dropWhile_eq_self_of_head
    intro c hc
    rw [hud, List.cons_append, List.head?_cons, Option.some_inj] at hc
    rw [← hc]; exact hws
  rw [decTail, List.dropWhile_cons_of_pos (by decide : isWs ' ' = true),
    huself, findUnit_self u hu rest]
  show some (val, u, (' ' :: rest).dropWhile isWs) = some (val, u, rest)
  rw [List.dropWhile_cons_of_pos (by decide : isWs ' ' = true), hrdw]

/-- An integer amount followed by a unit and a rest group parses to the
exact integer value. -/
lemma parse_amount_int (d1 : List Char) (u : String) (rest : List Char)
    (hd1 : d1 ≠ []) (hall : d1.all isDig = true) (hu : u ∈ unitAlts)
    (hrne : rest ≠ []) (hrest : normalize_spacesL rest = rest) :
    parse_amount_unit_minimal (d1 ++ (' ' :: u.data) ++ ' ' :: rest) =
      (some (mkRat (digitsVal d1) 1), normalize_unit u.data, rest) := by
  obtain ⟨hrh, hrl, hrdw⟩ := rest_facts hrest
  obtain ⟨c0, cs0, hud, -, hws0, hsl⟩ := unit_head_facts hu
  have hne : ¬(d1.isEmpty = true) := fun hE => hd1 (List.isEmpty_eq_true.mp hE)
  have hstrip := stripWs_shape (' ' :: u.data) hd1 hall hrne hrl
  have hhd : ∀ c, ((' ' :: u.data) ++ ' ' :: rest).head? = some c →
      isDig c = false := by
    intro c hc
    rw [List.cons_append, List.head?_cons, Option.some_inj] at hc
    rw [← hc]; decide
  have htd := takeWhile_append_stop d1 ((' ' :: u.data) ++ ' ' :: rest) hall hhd
  have hfrac : matchFractionUnit (d1 ++ (' ' :: u.data) ++ ' ' :: rest) =
      none := by
    rw [matchFractionUnit, List.append_assoc, htd.1, if_neg hne, htd.2,
      List.cons_append,
      List.dropWhile_cons_of_pos (by decide : isWs ' ' = true)]
    have huself : (u.data ++ ' ' :: rest).dropWhile isWs =
        u.data ++ ' ' :: rest := by
      apply dropWhile_eq_self_of_head
      intro c hc
      rw [hud, List.cons_append, List.head?_cons, Option.some_inj] at hc
      rw [← hc]
      exact hws0
    rw [huself, hud, List.cons_append]
    split
    · rename_i r3 heq
      injection heq with hc0 hr3
      exact absurd hc0 hsl
    · rfl
  have hdec : matchDecimalUnit (d1 ++ (' ' :: u.data) ++ ' ' :: rest) =
      some (d1, u, rest) := by
    rw [matchDecimalUnit, List.append_assoc, htd.1, if_neg hne, htd.2,
      List.cons_append]
    split
    · rename_i c r2 heq
      injection heq with hc hr2
      rw [← hc, ← hr2]
      rw [if_neg (by rintro ⟨h | h, -⟩ <;> exact absurd h (by decide))]
      exact decTail_eq hu d1 rest hrdw
    · rename_i heq
      exact absurd heq (by simp)
  rw [parse_amount_unit_minimal, hstrip, hfrac, hdec]
  show (parse_decimal d1, normalize_unit u.data, normalize_spacesL rest) =
    (some (mkRat (digitsVal d1) 1), normalize_unit u.data, rest)
  rw [parse_decimal_int hd1 hall, hrest]

/-- A fraction amount `d1/d2` followed by a unit and a rest group parses
to the `Decimal`-division value `decDiv28 d1 d2`. -/
lemma parse_amount_frac (d1 d2 : List Char) (u : String) (rest : List Char)
    (hd1 : d1 ≠ []) (h1 : d1.all isDig = true)
    (hd2 : d2 ≠ []) (h2 : d2.all isDig = true)
    (hu : u ∈ unitAlts) (hrne : rest ≠ [])
    (hrest : normalize_spacesL rest = rest) (hden : digitsVal d2 ≠ 0) :
    parse_amount_unit_minimal
        (d1 ++ ('/' :: (d2 ++ ' ' :: u.data)) ++ ' ' :: rest) =
      (some (decDiv28 (digitsVal d1) (digitsVal d2)),
        normalize_unit u.data, rest) := by
  obtain ⟨hrh, hrl, hrdw⟩ := rest_facts hrest
  obtain ⟨c0, cs0, hud, -, hws0, -⟩ := unit_head_facts hu
  have hne : ¬(d1.isEmpty = true) := fun hE => hd1 (List.isEmpty_eq_true.mp hE)
  have hne2 : ¬(d2.isEmpty = true) := fun hE => hd2 (List.isEmpty_eq_true.mp hE)
  have hstrip := stripWs_shape ('/' :: (d2 ++ ' ' :: u.data)) hd1 h1 hrne hrl
  have hhd : ∀ c, (('/' :: (d2 ++ ' ' :: u.data)) ++ ' ' :: rest).head? =
      some c → isDig c = false := by
    intro c hc
    rw [List.cons_append, List.head?_cons, Option.some_inj] at hc
    rw [← hc]; decide
  have htd := takeWhile_append_stop d1
    (('/' :: (d2 ++ ' ' :: u.data)) ++ ' ' :: rest) h1 hhd
  have hhd2 : ∀ c, ((' ' :: u.data) ++ ' ' :: rest).head? = some c →
      isDig c = false := by
    intro c hc
    rw [List.cons_append, List.head?_cons, Option.some_inj] at hc
    rw [← hc]; decide
  have htd2 := takeWhile_append_stop d2 ((' ' :: u.data) ++ ' ' :: rest) h2 hhd2
  have hYdw : (d2 ++ ((' ' :: u.data) ++ ' ' :: rest)).dropWhile isWs =
      d2 ++ ((' ' :: u.data) ++ ' ' :: rest) :=
    dropWhile_eq_self_of_head (digits_head_not_ws hd2 h2)
  have huself : (u.data ++ ' ' :: rest).dropWhile isWs =
      u.data ++ ' ' :: rest := by
    apply dropWhile_eq_self_of_head
    intro c hc
    rw [hud, List.cons_append, List.head?_cons, Option.some_inj] at hc
    rw [← hc]; exact hws0
  have hfrac : matchFractionUnit
      (d1 ++ ('/' :: (d2 ++ ' ' :: u.data)) ++ ' ' :: rest) =
      some (digitsVal d1, digitsVal d2, u, rest) := by
    rw [matchFractionUnit, List.append_assoc, htd.1, if_neg hne, htd.2,
      List.cons_append,
      List.dropWhile_cons_of_neg (by decide : ¬(isWs '/' = true))]
    split
    · rename_i r3 heq
      injection heq with hc0 hr3
      rw [← hr3, List.append_assoc, hYdw, htd2.1, if_neg hne2, htd2.2,
        List.cons_append,
        List.dropWhile_cons_of_pos (by decide : isWs ' ' = true), huself,
        findUnit_self u hu rest]
      show some (digitsVal d1, digitsVal d2, u, (' ' :: rest).dropWhile isWs) =
        some (digitsVal d1, digitsVal d2, u, rest)
      rw [List.dropWhile_cons_of_pos (by decide : isWs ' ' = true), hrdw]
    · rename_i hno
      exact ((hno ((d2 ++ ' ' :: u.data) ++ ' ' :: rest)) rfl).elim
  rw [parse_amount_unit_minimal, hstrip, hfrac]
  show ((if digitsVal d2 = 0 then none
      else some (decDiv28 (digitsVal d1) (digitsVal d2))),
    normalize_unit u.data, normalize_spacesL rest) =
    (some (decDiv28 (digitsVal d1) (digitsVal d2)),
      normalize_unit u.data, rest)
  rw [if_neg hden, hrest]

/-- A decimal amount `d1<sep>d2` (sep `.` or `,`) followed by a unit and
a rest group parses to the exact decimal value written. -/
lemma parse_amount_dec (d1 d2 : List Char) (sep : Char) (u : String)
    (rest : List Char)
    (hd1 : d1 ≠ []) (h1 : d1.all isDig = true)
    (hd2 : d2 ≠ []) (h2 : d2.all isDig = true)
    (hsep : sep = '.' ∨ sep = ',')
    (hu : u ∈ unitAlts) (hrne : rest ≠ [])
    (hrest : normalize_spacesL rest = rest) :
    parse_amount_unit_minimal
        (d1 ++ (sep :: (d2 ++ ' ' :: u.data)) ++ ' ' :: rest) =
      (some (mkRat (digitsVal d1 * 10 ^ d2.length + digitsVal d2)
          (10 ^ d2.length)),
        normalize_unit u.data, rest) := by
  obtain ⟨hrh, hrl, hrdw⟩ := rest_facts hrest
  have hsd : isDig sep = false := by rcases hsep with rfl | rfl <;> decide
  have hsw : isWs sep = false := by rcases hsep with rfl | rfl <;> decide
  have hss : sep ≠ '/' := by rcases hsep with rfl | rfl <;> decide
  have hne : ¬(d1.isEmpty = true) := fun hE => hd1 (List.isEmpty_eq_true.mp hE)
  have hstrip := stripWs_shape (sep :: (d2 ++ ' ' :: u.data)) hd1 h1 hrne hrl
  have hhd : ∀ c, ((sep :: (d2 ++ ' ' :: u.data)) ++ ' ' :: rest).head? =
      some c → isDig c = false := by
    intro c hc
    rw [List.cons_append, List.head?_cons, Option.some_inj] at hc
    rw [← hc]; exact hsd
  have htd := takeWhile_append_stop d1
    ((sep :: (d2 ++ ' ' :: u.data)) ++ ' ' :: rest) h1 hhd
  have hhd2 : ∀ c, ((' ' :: u.data) ++ ' ' :: rest).head? = some c →
      isDig c = false := by
    intro c hc
    rw [List.cons_append, List.head?_cons, Option.some_inj] at hc
    rw [← hc]; decide
  have htd2 := takeWhile_append_stop d2 ((' ' :: u.data) ++ ' ' :: rest) h2 hhd2
  have hfrac : matchFractionUnit
      (d1 ++ (sep :: (d2 ++ ' ' :: u.data)) ++ ' ' :: rest) = none := by
    rw [matchFractionUnit, List.append_assoc, htd.1, if_neg hne, htd.2,
      List.cons_append, List.dropWhile_cons_of_neg (by simp [hsw])]
    split
    · rename_i r3 heq
      injection heq with hc0 hr3
      exact absurd hc0 hss
    · rfl
  have hd2e : (!d2.isEmpty) = true := by
    cases d2 with
    | nil => exact absurd rfl hd2
    | cons x xs => simp
  have hdec : matchDecimalUnit
      (d1 ++ (sep :: (d2 ++ ' ' :: u.data)) ++ ' ' :: rest) =
      some (d1 ++ sep :: d2, u, rest) := by
    rw [matchDecimalUnit, List.append_assoc, htd.1, if_neg hne, htd.2,
      List.cons_append]
    split
    · rename_i c r2 heq
      injection heq with hc hr2
      rw [← hc, ← hr2, List.append_assoc, htd2.1, htd2.2]
      rw [if_pos ⟨hsep, hd2e⟩, List.cons_append,
        decTail_eq hu (d1 ++ sep :: d2) rest hrdw]
    · rename_i heq
      exact absurd heq (by simp)
  rw [parse_amount_unit_minimal, hstrip, hfrac, hdec]
  show (parse_decimal (d1 ++ sep :: d2), normalize_unit u.data,
    normalize_spacesL rest) =
    (some (mkRat (digitsVal d1 * 10 ^ d2.length + digitsVal d2)
        (10 ^ d2.length)), normalize_unit u.data, rest)
  rw [parse_decimal_dec hd1 h1 hd2 h2 hsep, hrest]

/-- When the scaled division is exact and its quotient needs at most 28
significant digits, `Decimal` division returns the exact rational
`a / b`. -/
lemma decDiv28_exact (a b : Nat) (hb : b ≠ 0)
    (hmod : (a * 10 ^ scaleUpF (b * 10 ^ 27 + 1) a (b * 10 ^ 27)) % b = 0)
    (hdig : digits10
      ((a * 10 ^ scaleUpF (b * 10 ^ 27 + 1) a (b * 10 ^ 27)) / b) ≤ 28) :
    decDiv28 a b = mkRat a b := by
  by_cases ha : a = 0
  · subst ha
    rw [decDiv28, if_pos rfl, Rat.mkRat_eq_div]
    simp
  · simp only [decDiv28]
    rw [if_neg ha, if_pos hdig, hmod]
    have hnc : ¬(b < 2 * 0 ∨ (2 * 0 = b ∧
        (a * 10 ^ scaleUpF (b * 10 ^ 27 + 1) a (b * 10 ^ 27) / b) % 2 = 1)) := by
      rintro (h | ⟨h1, -⟩) <;> omega
    rw [if_neg hnc, Nat.add_zero, Rat.mkRat_eq_div, Rat.mkRat_eq_div,
      div_eq_div_iff (by positivity) (by exact_mod_cast hb)]
    have key : a * 10 ^ scaleUpF (b * 10 ^ 27 + 1) a (b * 10 ^ 27) / b * b =
        a * 10 ^ scaleUpF (b * 10 ^ 27 + 1) a (b * 10 ^ 27) :=
      Nat.div_mul_cancel (Nat.dvd_of_mod_eq_zero hmod)
    exact_mod_cast congrArg (fun n : ℕ => (n : ℚ)) key

set_option maxRecDepth 10000 in
/-- C8 counterexample: the fraction "1/3 g rau" does NOT parse to the
exact rational 1/3: `Decimal(1)/Decimal(3)` rounds the quotient to 28
significant digits, and the parsed amount is that rounded value. -/
theorem C8_counterexample :
    (parse_amount_unit_minimal "1/3 g rau".data).1 =
        some (mkRat 3333333333333333333333333333 (10 ^ 28)) ∧
      mkRat 3333333333333333333333333333 (10 ^ 28) ≠ mkRat 1 3 := by
  constructor
  · decide
  · decide

/-- C8 (amended): integer amounts and decimal amounts (with '.' or ','
as the separator) parse to the exact written rational value; fraction
amounts parse to the `Decimal`-division value `decDiv28`, which equals
the exact rational `a / b` whenever the 28-significant-digit scaled
division is exact. -/
theorem C8_amounts_exactness :
    (∀ (d1 : List Char) (u : String) (rest : List Char),
        d1 ≠ [] → d1.all isDig = true → u ∈ unitAlts → rest ≠ [] →
        normalize_spacesL rest = rest →
        parse_amount_unit_minimal (d1 ++ (' ' :: u.data) ++ ' ' :: rest) =
          (some (mkRat (digitsVal d1) 1), normalize_unit u.data, rest)) ∧
    (∀ (d1 d2 : List Char) (sep : Char) (u : String) (rest : List Char),
        d1 ≠ [] → d1.all isDig = true → d2 ≠ [] → d2.all isDig = true →
        (sep = '.' ∨ sep = ',') → u ∈ unitAlts → rest ≠ [] →
        normalize_spacesL rest = rest →
        parse_amount_unit_minimal
            (d1 ++ (sep :: (d2 ++ ' ' :: u.data)) ++ ' ' :: rest) =
          (some (mkRat (digitsVal d1 * 10 ^ d2.length + digitsVal d2)
              (10 ^ d2.length)),
            normalize_unit u.data, rest)) ∧
    (∀ (aa bb k : Nat),
        (mkRat (aa * 10 ^ k + bb) (10 ^ k) : ℚ) =
          (aa : ℚ) + (bb : ℚ) / 10 ^ k) ∧
    (∀ (d1 d2 : List Char) (u : String) (rest : List Char),
        d1 ≠ [] → d1.all isDig = true → d2 ≠ [] → d2.all isDig = true →
        u ∈ unitAlts → rest ≠ [] → normalize_spacesL rest = rest →
        digitsVal d2 ≠ 0 →
        parse_amount_unit_minimal
            (d1 ++ ('/' :: (d2 ++ ' ' :: u.data)) ++ ' ' :: rest) =
          (some (decDiv28 (digitsVal d1) (digitsVal d2)),
            normalize_unit u.data, rest)) ∧
    (∀ a b : Nat, b ≠ 0 →
        (a * 10 ^ scaleUpF (b * 10 ^ 27 + 1) a (b * 10 ^ 27)) % b = 0 →
        digits10 ((a * 10 ^ scaleUpF (b * 10 ^ 27 + 1) a (b * 10 ^ 27)) / b)
          ≤ 28 →
        decDiv28 a b = mkRat a b) := by
  refine ⟨parse_amount_int, parse_amount_dec, ?_, parse_amount_frac,
    decDiv28_exact⟩
  intro aa bb k
  rw [Rat.mkRat_eq_div]
  push_cast
  have h10 : (10 : ℚ) ^ k ≠ 0 := by positivity
  field_simp

set_option maxRecDepth 10000 in
/-- Witness for C8 (amended) at the inputs "2 g bo", "2.5 g bo" and
"1/2 g bo". -/
theorem C8_amounts_exactness_witness :
    parse_amount_unit_minimal "2 g bo".data =
        (some (mkRat 2 1), some "g", "bo".data) ∧
      parse_amount_unit_minimal "2.5 g bo".data =
        (some (mkRat 25 10), some "g", "bo".data) ∧
      (mkRat (2 * 10 ^ 1 + 5) (10 ^ 1) : ℚ) = (2 : ℚ) + (5 : ℚ) / 10 ^ 1 ∧
      parse_amount_unit_minimal "1/2 g bo".data =
        (some (decDiv28 1 2), some "g", "bo".data) ∧
      decDiv28 1 2 = mkRat 1 2 := by
  obtain ⟨h1, h2, h3, h4, h5⟩ := C8_amounts_exactness
  refine ⟨?_, ?_, ?_, ?_, ?_⟩
  · exact h1 ['2'] "g" "bo".data (by decide) (by decide) (by decide)
      (by decide) (by decide)
  · exact h2 ['2'] ['5'] '.' "g" "bo".data (by decide) (by decide)
      (by decide) (by decide) (Or.inl rfl) (by decide) (by decide)
      (by decide)
  · exact h3 2 5 1
  · exact h4 ['1'] ['2'] "g" "bo".data (by decide) (by decide) (by decide)
      (by decide) (by decide) (by decide) (by decide) (by decide)
  · exact h5 1 2 (by decide) (by decide) (by decide)

/-! ### Recipe promotion ingredient loop (pipeline.py lines 362-438) -/

/-- `looks_like_sentence` (pipeline.py lines 440-442): more than 8
whitespace-separated words. -/
def looks_like_sentence (text : List Char) : Bool :=
  8 < (wordsBy isWs text).length

/-- `BAD_PREFIXES` (pipeline.py lines 465-473). -/
def BAD_LINE_STARTS : List (List Char) :=
  ["mình có".data, "bạn nào".data, "ai có".data, "nhà mình".data,
   "ở sg".data, "ở hn".data, "mình ở".data]

/-- `strip_bad_prefix` (pipeline.py lines 475-480): drop the first
matching conversational lead-in from the line and strip the
remainder. -/
def strip_bad_pre (text : List Char) : List Char :=
  match BAD_LINE_STARTS.find?
      (fun p => (text.map lowerChar).take p.length = p) with
  | some p => stripWs (text.drop p.length)
  | none => text

/-- The production store as seen by the ingredient loop: `ingredients`
rows `(id, key)` and `ingredient_aliases` rows
`(ingredient_id, alias, alias_norm)`, plus a fresh-id counter. -/
structure ProdStore where
  nextId : Nat
  ingredients : List (Nat × List Char)
  ing_aliases : List (Nat × List Char × List Char)
deriving DecidableEq, Repr

/-- `get_or_create_ingredient` (pipeline.py lines 288-346): normalize
the key, look up by `alias_norm`, then by the unique `ingredients.key`
(ensuring the alias exists), else create the ingredient and its
alias. -/
def get_or_create_ingredient (st : ProdStore) (key alias_norm : List Char) :
    Except String (ProdStore × Nat) :=
  if ((stripWs key).map lowerChar).isEmpty then .error "Empty ingredient key"
  else
    match st.ing_aliases.find? (fun t => t.2.2 = alias_norm) with
    | some t => .ok (st, t.1)
    | none =>
      match st.ingredients.find?
          (fun p => p.2 = (stripWs key).map lowerChar) with
      | some p =>
        .ok ({ st with
          ing_aliases :=
            if st.ing_aliases.any (fun t => t.1 = p.1 && t.2.2 = alias_norm)
            then st.ing_aliases
            else st.ing_aliases ++
              [(p.1, (stripWs key).map lowerChar, alias_norm)] }, p.1)
      | none =>
        .ok ({ nextId := st.nextId + 1
               ingredients :=
                 st.ingredients ++ [(st.nextId, (stripWs key).map lowerChar)]
               ing_aliases := st.ing_aliases ++
                 [(st.nextId, (stripWs key).map lowerChar, alias_norm)] },
          st.nextId)

/-- One `dedup` entry `(ing_id, amount, unit, note, role)`. -/
structure DedupEntry where
  ing_id : Nat
  amount : Option ℚ
  unit : Option String
  note : Option (List Char)
  role : String
deriving DecidableEq, Repr

/-- `pick_role` (pipeline.py lines 380-383). -/
def pick_role (old_role new_role : String) : String :=
  if old_role = "core" ∨ new_role = "core" then "core" else "optional"

/-- The `dedup` dict update of `promote_recipe` (pipeline.py lines
415-433): insert a new entry in dict insertion order, or merge into the
existing entry in place. -/
def dedupInsert (ded : List (Nat × DedupEntry)) (iid : Nat)
    (pi : ParsedIngredient) : List (Nat × DedupEntry) :=
  if ded.any fun e => e.1 = iid then
    ded.map fun e =>
      if e.1 = iid then
        (iid, ⟨iid,
          if e.2.amount.isSome then e.2.amount
          else if pi.amount.isSome then pi.amount else none,
          if e.2.amount.isSome then e.2.unit
          else if pi.amount.isSome then pi.unit else none,
          merge_note e.2.note pi.note,
          pick_role e.2.role pi.role⟩)
      else e
  else ded ++ [(iid, ⟨iid, pi.amount, pi.unit, pi.note, pi.role⟩)]

/-- The inner `for pi in parse_ingredient_text_phase1(raw)` loop
(pipeline.py lines 414-433). -/
def processItems : ProdStore → List (Nat × DedupEntry) →
    List ParsedIngredient → Except String (ProdStore × List (Nat × DedupEntry))
  | st, ded, [] => .ok (st, ded)
  | st, ded, pi :: pis =>
    match get_or_create_ingredient st pi.key pi.alias_norm with
    | .error e => .error e
    | .ok p => processItems p.1 (dedupInsert ded p.2 pi) pis

/-- The per-line ingredient loop of `promote_recipe` (pipeline.py lines
406-433): strip the conversational lead-in, skip sentence-like lines and
empty lines, else parse the line and process every parsed item. -/
def promoteLines : ProdStore → List (Nat × DedupEntry) → List (List Char) →
    Except String (ProdStore × List (Nat × DedupEntry))
  | st, ded, [] => .ok (st, ded)
  | st, ded, raw :: raws =>
    if looks_like_sentence (strip_bad_pre raw) then promoteLines st ded raws
    else if (strip_bad_pre raw).isEmpty ||
        (stripWs (strip_bad_pre raw)).isEmpty then promoteLines st ded raws
    else
      match processItems st ded
          (parse_ingredient_text_phase1 (strip_bad_pre raw)) with
      | .error e => .error e
      | .ok p => promoteLines p.1 p.2 raws

set_option maxRecDepth 10000 in
/-- C10: a raw ingredient line that is sentence-like after
conversational-prefix stripping is skipped entirely by the promotion
loop — the store and the dedup map end up exactly as if the line were
absent, and no error is raised for it — even though the parser itself
accepts such a line (witnessed by a 9-word line). -/
theorem C10_sentence_lines_skipped :
    (∀ (st : ProdStore) (ded : List (Nat × DedupEntry))
        (xs ys : List (List Char)) (l : List Char),
        looks_like_sentence (strip_bad_pre l) = true →
        promoteLines st ded (xs ++ l :: ys) = promoteLines st ded (xs ++ ys)) ∧
      parse_ingredient_text_phase1 "a b c d e f g h i".data ≠ [] ∧
      looks_like_sentence (strip_bad_pre "a b c d e f g h i".data) = true := by
  refine ⟨?_, by decide, by decide⟩
  intro st ded xs
  induction xs generalizing st ded with
  | nil =>
    intro ys l hl
    rw [List.nil_append, List.nil_append]
    simp only [promoteLines]
    rw [if_pos hl]
  | cons r rs ih =>
    intro ys l hl
    rw [List.cons_append, List.cons_append]
    simp only [promoteLines]
    by_cases h1 : looks_like_sentence (strip_bad_pre r) = true
    · rw [if_pos h1, if_pos h1]
      exact ih st ded ys l hl
    · rw [if_neg h1, if_neg h1]
      by_cases h2 : ((strip_bad_pre r).isEmpty ||
          (stripWs (strip_bad_pre r)).isEmpty) = true
      · rw [if_pos h2, if_pos h2]
        exact ih st ded ys l hl
      · rw [if_neg h2, if_neg h2]
        cases hpi : processItems st ded
            (parse_ingredient_text_phase1 (strip_bad_pre r)) with
        | error e => rfl
        | ok p => exact ih p.1 p.2 ys l hl

set_option maxRecDepth 10000 in
/-- Witness for C10: the 9-word line is skipped between two normal
lines. -/
theorem C10_sentence_lines_skipped_witness :
    promoteLines ⟨0, [], []⟩ []
        (["rau".data] ++ "a b c d e f g h i".data :: ["mắm".data]) =
      promoteLines ⟨0, [], []⟩ [] (["rau".data] ++ ["mắm".data]) :=
  C10_sentence_lines_skipped.1 ⟨0, [], []⟩ [] ["rau".data] ["mắm".data]
    "a b c d e f g h i".data (by decide)

end Promote
